import Mathlib

/-!
Verification of the SuperMap JSON format class (src/common/format/JSON.js).

The development shallowly embeds the class: JavaScript values that can reach
`write` become the inductive type `JSValue`; the mutable instance fields
(`indent`, `space`, `newline`, `level`, `pretty`, `nativeJSON`, `keepData`,
`data`) become the record `JSONFormat`, threaded explicitly through every
call; the host primitives `JSON.stringify` / `JSON.parse`, which the code
delegates to but does not define, are modelled from their documented
behaviour (`nativeStringify`, `jsonParse`).  Finite JavaScript numbers are
modelled as integers: the decimal rendering of non-integral doubles is
floating-point behaviour and outside the scope of this embedding, and both
paths of the code use the same host number-to-string conversion.
-/

namespace SuperMapJSON

/-- A JavaScript number as seen by the serializer: a finite value (modelled
as an integer) or one of the three non-finite values. -/
inductive JSNum where
  | fin (i : Int)
  | nan
  | inf
  | ninf

/-- A JavaScript `Date` for the purposes of serialization.  A `Date` stores an
epoch instant; the code reads its local-time projection (`getFullYear`,
`getMonth`, `getDate`, `getHours`, `getMinutes`, `getSeconds`) while the
native serializer reads the UTC projection (`toISOString`).  Both projections
are carried as fields, since calendar arithmetic between them is host and
time-zone dependent.  `month` and `utcMonth` are 0-based as returned by
`getMonth()`. -/
structure JSDate where
  fullYear : Nat
  month : Nat
  date : Nat
  hours : Nat
  minutes : Nat
  seconds : Nat
  utcFullYear : Nat
  utcMonth : Nat
  utcDate : Nat
  utcHours : Nat
  utcMinutes : Nat
  utcSeconds : Nat
  ms : Nat

/-- A JavaScript value that can be passed to `write` or produced by `read`.
Plain objects carry their own enumerable properties (`own`, in insertion
order) separately from inherited enumerable properties (`inherited`), so that
the `hasOwnProperty` filter in the object serializer is observable.  `vundef`
and `vfun` are the representative unsupported categories (`typeof` gives
"undefined" / "function", neither of which has a serializer). -/
inductive JSValue where
  | vnull
  | vundef
  | vfun
  | vbool (b : Bool)
  | vnum (n : JSNum)
  | vstr (s : String)
  | vdate (d : JSDate)
  | varr (elems : List JSValue)
  | vobj (own : List (String × JSValue)) (inherited : List (String × JSValue))

open JSValue JSNum

/-- Decimal digits of `n`, most significant first; fuel-based so that the
definition is structurally recursive (any fuel above `n` is enough). -/
def natDecDigits : Nat → Nat → List Char
  | 0, _ => []
  | fuel + 1, n =>
    if n < 10 then [Nat.digitChar n]
    else natDecDigits fuel (n / 10) ++ [Nat.digitChar (n % 10)]

/-- Decimal rendering of a natural number, as JavaScript ToString produces. -/
def natToDecimal (n : Nat) : String := String.mk (natDecDigits (n + 1) n)

/-- Decimal rendering of an integer, as JavaScript ToString produces. -/
def intToDecimal (i : Int) : String :=
  if i < 0 then "-" ++ natToDecimal i.natAbs else natToDecimal i.toNat

/-- The host `isFinite` test on a number. -/
def isFiniteNum : JSNum → Bool
  | .fin _ => true
  | _ => false

/-- The host `String(number)` conversion. -/
def jsNumToString : JSNum → String
  | .fin i => intToDecimal i
  | .nan => "NaN"
  | .inf => "Infinity"
  | .ninf => "-Infinity"

/-- The `serialize.number` method: `isFinite(number) ? String(number) : "null"`. -/
def serializeNumber (n : JSNum) : String :=
  if isFiniteNum n then jsNumToString n else "null"

/-- The `serialize.boolean` method: `String(bool)`. -/
def serializeBoolean (b : Bool) : String :=
  if b then "true" else "false"

/-- The escape table `m` of `serialize.string`: the seven characters with a
dedicated two-character escape. -/
def escapeMapJS (c : Char) : Option String :=
  if c = '\x08' then some ("\\b")
  else if c = '\x09' then some ("\\t")
  else if c = '\x0a' then some ("\\n")
  else if c = '\x0c' then some ("\\f")
  else if c = '\x0d' then some ("\\r")
  else if c = '\x22' then some ("\\\"")
  else if c = '\x5c' then some ("\\\\")
  else none

/-- The character class of the regular expressions in `serialize.string`:
a double quote, a backslash, or a code point in 0x00-0x1f. -/
def escapeClassJS (c : Char) : Bool :=
  c = '\x22' || c = '\x5c' || c.toNat < 0x20

/-- The replacement callback of `serialize.string`: the table entry when the
character has one, otherwise a backslash-u escape built from the two hex
nibbles of the character code (`toString(16)` on values below 16 yields one
lowercase hex digit, which is what `Nat.digitChar` produces). -/
def escapeCharJS (c : Char) : String :=
  match escapeMapJS c with
  | some e => e
  | none => "\\u00" ++ String.mk [Nat.digitChar (c.toNat / 16), Nat.digitChar (c.toNat % 16)]

/-- Models `Array.prototype.join('')` on the `pieces` arrays the serializers
build. -/
def joinPieces (l : List String) : String :=
  l.foldr (fun a b => a ++ b) ""

/-- The `serialize.string` method: if no character of the string falls in the
escape class, wrap the string in double quotes unchanged; otherwise rebuild it
with each offending character replaced by its escape sequence (the global
regex replace touches exactly the characters of the class). -/
def serializeStringJS (str : String) : String :=
  if str.data.any escapeClassJS then
    "\"" ++ joinPieces (str.data.map
      (fun c => if escapeClassJS c then escapeCharJS c else String.mk [c])) ++ "\""
  else "\"" ++ str ++ "\""

/-- The nested `format` helper of `serialize.date`: left-pad a number below 10
with a single zero. -/
def format (n : Nat) : String :=
  if n < 10 then "0" ++ natToDecimal n else natToDecimal n

/-- The `serialize.date` method: quoted local-time `YYYY-MM-DDTHH:MM:SS`,
year unpadded, month converted from 0-based `getMonth()` to calendar form. -/
def serializeDate (d : JSDate) : String :=
  "\"" ++ natToDecimal d.fullYear ++ "-" ++
    format (d.month + 1) ++ "-" ++
    format d.date ++ "T" ++
    format d.hours ++ ":" ++
    format d.minutes ++ ":" ++
    format d.seconds ++ "\""

/-- Left-pad a decimal rendering with zeros to the given width. -/
def padZeros (width : Nat) (n : Nat) : String :=
  String.mk (List.replicate (width - (natToDecimal n).length) '0') ++ natToDecimal n

/-- Modelled from the spec: the host `Date.prototype.toISOString`, which the
native serializer reaches through `Date.prototype.toJSON`.  It renders the
UTC projection of the instant as an ISO timestamp with a four-digit year,
two-digit fields, three-digit milliseconds and a trailing Z. -/
def toISOString (d : JSDate) : String :=
  padZeros 4 d.utcFullYear ++ "-" ++ padZeros 2 (d.utcMonth + 1) ++ "-" ++
    padZeros 2 d.utcDate ++ "T" ++ padZeros 2 d.utcHours ++ ":" ++
    padZeros 2 d.utcMinutes ++ ":" ++ padZeros 2 d.utcSeconds ++ "." ++
    padZeros 3 d.ms ++ "Z"

/-- Modelled from the spec: the escaping step of the host `JSON.stringify`
(ECMA-262 QuoteJSONString): the seven named characters get their short
escapes, any other code unit below 0x20 becomes a four-hex-digit
backslash-u escape, and every other character stands for itself. -/
def nativeEscapeChar (c : Char) : String :=
  if c = '\x22' then "\\\""
  else if c = '\x5c' then "\\\\"
  else if c = '\x08' then "\\b"
  else if c = '\x0c' then "\\f"
  else if c = '\x0a' then "\\n"
  else if c = '\x0d' then "\\r"
  else if c = '\x09' then "\\t"
  else if c.toNat < 0x20 then
    "\\u" ++ String.mk [Nat.digitChar (c.toNat / 4096 % 16), Nat.digitChar (c.toNat / 256 % 16),
      Nat.digitChar (c.toNat / 16 % 16), Nat.digitChar (c.toNat % 16)]
  else String.mk [c]

/-- Modelled from the spec: the host `JSON.stringify` quoting of a string. -/
def nativeQuote (s : String) : String :=
  "\"" ++ joinPieces (s.data.map nativeEscapeChar) ++ "\""

/-- Comma-separated concatenation, used by the model of the host serializer. -/
def commaJoin : List String → String
  | [] => ""
  | [x] => x
  | x :: y :: rest => x ++ "," ++ commaJoin (y :: rest)

/-- Modelled from the spec: the host `JSON.stringify` on a value, the trusted
native serializer of the fast path.  `undefined` and functions are not
serializable at the top level; inside arrays they render as `null`; inside
objects the property is skipped.  Dates render through `toJSON` as their
quoted ISO string.  Only own enumerable properties are visited.  Non-finite
numbers render as `null`. -/
def nativeStringify : JSValue → Option String
  | vnull => some ("null")
  | vundef => none
  | vfun => none
  | vbool b => some (serializeBoolean b)
  | vnum n => some (if isFiniteNum n then jsNumToString n else "null")
  | vstr s => some (nativeQuote s)
  | vdate d => some (nativeQuote (toISOString d))
  | varr xs => some ("[" ++ commaJoin (goElems xs) ++ "]")
  | vobj own _ => some ("\x7b" ++ commaJoin (goMembers own) ++ "\x7d")
where
  goElems : List JSValue → List String
    | [] => []
    | x :: rest => (nativeStringify x).getD ("null") :: goElems rest
  goMembers : List (String × JSValue) → List String
    | [] => []
    | (k, v) :: rest =>
      match nativeStringify v with
      | some vj => (nativeQuote k ++ ":" ++ vj) :: goMembers rest
      | none => goMembers rest

/-- The mutable instance state of a `SuperMap.Format.JSON` object: the
formatting units, the indent level, the pretty flag (set by each `write`
call), the host-capability flag `nativeJSON`, and the optional parsed-data
cache used by `read`. -/
structure JSONFormat where
  indent : String := "    "
  space : String := " "
  newline : String := "\n"
  level : Int := 0
  pretty : Bool := false
  nativeJSON : Bool := true
  keepData : Bool := false
  data : Option JSValue := none

/-- The `writeIndent` method: the indent unit repeated `level` times when
pretty-printing, the empty string otherwise (a non-positive level yields an
empty loop). -/
def writeIndent (s : JSONFormat) : String :=
  if s.pretty then joinPieces (List.replicate s.level.toNat s.indent) else ""

/-- The `writeNewline` method. -/
def writeNewline (s : JSONFormat) : String :=
  if s.pretty then s.newline else ""

/-- The `writeSpace` method. -/
def writeSpace (s : JSONFormat) : String :=
  if s.pretty then s.space else ""

/-- The result of `typeof` on a modelled value. -/
def typeofStr : JSValue → String
  | vnull => "object"
  | vundef => "undefined"
  | vfun => "function"
  | vbool _ => "boolean"
  | vnum _ => "number"
  | vstr _ => "string"
  | vdate _ => "object"
  | varr _ => "object"
  | vobj _ _ => "object"

/-- Whether `this.serialize[type]` is defined: the serialize table has the
six keys object, array, string, number, boolean, date. -/
def hasSerializer (t : String) : Bool :=
  t = "object" || t = "array" || t = "string" || t = "number" || t = "boolean" || t = "date"

/-- The `write` method specialized to a string argument.  The object
serializer recursively calls `write` on each property key, which is always a
string; since that key is not a structural subterm of the object being
traversed, the recursion is represented by this specialization of `write`'s
body at a string value (the lemma `write_vstr` certifies that it agrees with
`write` itself). -/
def writeString (k : String) (pretty : Bool) (s : JSONFormat) : Option String × JSONFormat :=
  let s1 := { s with pretty := pretty }
  if !s1.pretty && s1.nativeJSON then (nativeStringify (vstr k), s1)
  else (some (serializeStringJS k), s1)

/-- The `write` method together with the type-specific serializers it
dispatches to.  `write` sets `this.pretty`, checks that a serializer exists
for `typeof value`, takes the native fast path when pretty-printing is off
and `nativeJSON` holds, and otherwise runs the custom serializer; a value
with no serializer leaves `json` at its initial `null` (`none`).  The
`serialize.object` sub-dispatch (null / Date / Array / plain object) is
inlined in the match; `arrElems` is the loop of `serialize.array` (note its
comma test is on the element index `i`, not on emission) and `ownPairs` the
loop of `serialize.object` over the own enumerable properties with its
`addComma` flag (inherited enumerable properties fail `hasOwnProperty` and
leave no trace, see `serialize.object`'s guard).  In this embedding the
serializers are total, so the try/catch of `write` has nothing to catch. -/
def write (v : JSValue) (pretty : Bool) (s : JSONFormat) : Option String × JSONFormat :=
  let s1 := { s with pretty := pretty }
  if hasSerializer (typeofStr v) then
    if !s1.pretty && s1.nativeJSON then (nativeStringify v, s1)
    else
      match v with
      | vnull => (some ("null"), s1)
      | vdate d => (some (serializeDate d), s1)
      | vstr str => (some (serializeStringJS str), s1)
      | vnum n => (some (serializeNumber n), s1)
      | vbool b => (some (serializeBoolean b), s1)
      | varr xs =>
        let s2 := { s1 with level := s1.level + 1 }
        let (pieces, s3) := arrElems xs 0 s2
        let s4 := { s3 with level := s3.level - 1 }
        (some (joinPieces (["["] ++ pieces ++ [writeNewline s4, writeIndent s4, "]"])), s4)
      | vobj own _ =>
        let s2 := { s1 with level := s1.level + 1 }
        let (ownPieces, s3) := ownPairs own false s2
        let s4 := { s3 with level := s3.level - 1 }
        (some (joinPieces (["\x7b"] ++ ownPieces ++ [writeNewline s4, writeIndent s4, "\x7d"])), s4)
      | vundef => (none, s1)
      | vfun => (none, s1)
  else (none, s1)
where
  arrElems : List JSValue → Nat → JSONFormat → List String × JSONFormat
    | [], _, s => ([], s)
    | x :: rest, i, s =>
      let (json, sx) := write x s.pretty s
      let here : List String :=
        match json with
        | some j => (if i > 0 then [","] else []) ++ [writeNewline sx, writeIndent sx, j]
        | none => []
      let (pieces, s2) := arrElems rest (i + 1) sx
      (here ++ pieces, s2)
  ownPairs : List (String × JSValue) → Bool → JSONFormat → List String × JSONFormat
    | [], _, s => ([], s)
    | (k, v) :: rest, addComma, s =>
      let (keyJSON, sk) := writeString k s.pretty s
      let (valueJSON, sv) := write v sk.pretty sk
      match keyJSON, valueJSON with
      | some kj, some vj =>
        let here := (if addComma then [","] else []) ++
          [writeNewline sv, writeIndent sv, kj, ":", writeSpace sv, vj]
        let (restPieces, s2) := ownPairs rest true sv
        (here ++ restPieces, s2)
      | _, _ =>
        let (restPieces, s2) := ownPairs rest addComma sv
        (restPieces, s2)

/-- JSON insignificant whitespace. -/
def isWs (c : Char) : Bool :=
  c = ' ' || c = '\t' || c = '\n' || c = '\r'

/-- Drop leading JSON whitespace. -/
def skipWs : List Char → List Char
  | [] => []
  | c :: rest => if isWs c then skipWs rest else c :: rest

/-- Decimal digit test. -/
def isDigitChar (c : Char) : Bool :=
  '0' ≤ c && c ≤ '9'

/-- Value of a decimal digit character. -/
def digitVal (c : Char) : Nat := c.toNat - '0'.toNat

/-- Consume a maximal run of decimal digits, folding them onto `acc`. -/
def parseDigits : List Char → Nat → Nat × List Char
  | [], acc => (acc, [])
  | c :: rest, acc =>
    if isDigitChar c then parseDigits rest (acc * 10 + digitVal c) else (acc, c :: rest)

/-- Value of a hexadecimal digit character, if it is one. -/
def hexVal (c : Char) : Option Nat :=
  if isDigitChar c then some (digitVal c)
  else
    let n := c.toNat
    if 97 ≤ n && n ≤ 102 then some (n - 87)
    else if 65 ≤ n && n ≤ 70 then some (n - 55)
    else none

/-- Modelled from the spec: the string production of the host JSON parser,
entered after the opening quote.  Plain characters (code point at least 0x20,
not a quote, not a backslash) stand for themselves; the eight short escapes
and the four-hex-digit backslash-u escape are decoded; a raw control
character, a bad escape or a missing closing quote is a parse error. -/
def parseStringBody : List Char → List Char → Except String (String × List Char)
  | [], _ => .error ("unterminated string")
  | c :: rest, acc =>
    if c = '"' then .ok (String.mk acc.reverse, rest)
    else if c = '\\' then
      match rest with
      | [] => .error ("unterminated escape")
      | e :: rest2 =>
        if e = '"' then parseStringBody rest2 ('"' :: acc)
        else if e = '\\' then parseStringBody rest2 ('\\' :: acc)
        else if e = '/' then parseStringBody rest2 ('/' :: acc)
        else if e = 'b' then parseStringBody rest2 ('\x08' :: acc)
        else if e = 'f' then parseStringBody rest2 ('\x0c' :: acc)
        else if e = 'n' then parseStringBody rest2 ('\x0a' :: acc)
        else if e = 'r' then parseStringBody rest2 ('\x0d' :: acc)
        else if e = 't' then parseStringBody rest2 ('\x09' :: acc)
        else if e = 'u' then
          match rest2 with
          | h1 :: h2 :: h3 :: h4 :: rest3 =>
            match hexVal h1, hexVal h2, hexVal h3, hexVal h4 with
            | some a, some b, some c2, some d =>
              parseStringBody rest3 (Char.ofNat (a * 4096 + b * 256 + c2 * 16 + d) :: acc)
            | _, _, _, _ => .error ("bad unicode escape")
          | _ => .error ("bad unicode escape")
        else .error ("bad escape")
    else if c.toNat < 0x20 then .error ("raw control character in string")
    else parseStringBody rest (c :: acc)

/-- Digits of a numeral after its optional sign: a maximal digit run, which
must not be followed by a fraction dot or an exponent letter (those belong to
numerals outside the integer fragment this embedding models). -/
def parseIntDigits (neg : Bool) (cs : List Char) : Except String (JSNum × List Char) :=
  match cs with
  | c :: _ =>
    if isDigitChar c then
      let (n, rest) := parseDigits cs 0
      match rest with
      | r :: _ =>
        if r = '.' || r = 'e' || r = 'E' then .error ("non-integer numeral outside the model")
        else .ok (JSNum.fin (if neg then -(n : Int) else (n : Int)), rest)
      | [] => .ok (JSNum.fin (if neg then -(n : Int) else (n : Int)), rest)
    else .error ("expected digit")
  | [] => .error ("expected digit")

/-- Modelled from the spec: the number production of the host JSON parser,
restricted to the integer grammar of this embedding (finite numbers are
modelled as integers; a fraction or exponent part is outside the model and
reported as an error). -/
def parseIntNumber (cs : List Char) : Except String (JSNum × List Char) :=
  match cs with
  | c :: cs1 =>
    if c = '-' then parseIntDigits true cs1 else parseIntDigits false (c :: cs1)
  | [] => .error ("expected digit")

mutual

/-- Modelled from the spec: the value production of the host JSON parser
(`JSON.parse` is the trusted parsing primitive the decoder delegates to).
The fuel argument only bounds the recursion depth; `jsonParse` supplies
enough fuel for its whole input. -/
def parseValue : Nat → List Char → Except String (JSValue × List Char)
  | 0, _ => .error ("out of fuel")
  | fuel + 1, cs =>
    match skipWs cs with
    | [] => .error ("unexpected end of input")
    | c :: rest =>
      if c = 'n' then
        match rest with
        | 'u' :: 'l' :: 'l' :: rest2 => .ok (vnull, rest2)
        | _ => .error ("bad literal")
      else if c = 't' then
        match rest with
        | 'r' :: 'u' :: 'e' :: rest2 => .ok (vbool true, rest2)
        | _ => .error ("bad literal")
      else if c = 'f' then
        match rest with
        | 'a' :: 'l' :: 's' :: 'e' :: rest2 => .ok (vbool false, rest2)
        | _ => .error ("bad literal")
      else if c = '"' then
        match parseStringBody rest [] with
        | .ok (s, rest2) => .ok (vstr s, rest2)
        | .error e => .error e
      else if c = '[' then
        match skipWs rest with
        | ']' :: rest2 => .ok (varr [], rest2)
        | cs2 => parseElems fuel cs2
      else if c = '\x7b' then
        match skipWs rest with
        | '\x7d' :: rest2 => .ok (vobj [] [], rest2)
        | cs2 => parseMembers fuel cs2
      else if c = '-' || isDigitChar c then
        match parseIntNumber (c :: rest) with
        | .ok (n, rest2) => .ok (vnum n, rest2)
        | .error e => .error e
      else .error ("unexpected character")

/-- Elements of a non-empty array, starting at the first element. -/
def parseElems : Nat → List Char → Except String (JSValue × List Char)
  | 0, _ => .error ("out of fuel")
  | fuel + 1, cs =>
    match parseValue fuel cs with
    | .error e => .error e
    | .ok (v, rest) =>
      match skipWs rest with
      | ',' :: rest2 =>
        match parseElems fuel rest2 with
        | .ok (varr xs, rest3) => .ok (varr (v :: xs), rest3)
        | .ok (_, _) => .error ("impossible")
        | .error e => .error e
      | ']' :: rest2 => .ok (varr [v], rest2)
      | _ => .error ("expected comma or closing bracket")

/-- Members of a non-empty object, starting at the first key. -/
def parseMembers : Nat → List Char → Except String (JSValue × List Char)
  | 0, _ => .error ("out of fuel")
  | fuel + 1, cs =>
    match skipWs cs with
    | '"' :: rest =>
      match parseStringBody rest [] with
      | .error e => .error e
      | .ok (k, rest2) =>
        match skipWs rest2 with
        | ':' :: rest3 =>
          match parseValue fuel rest3 with
          | .error e => .error e
          | .ok (v, rest4) =>
            match skipWs rest4 with
            | ',' :: rest5 =>
              match parseMembers fuel rest5 with
              | .ok (vobj mem [], rest6) => .ok (vobj ((k, v) :: mem) [], rest6)
              | .ok (_, _) => .error ("impossible")
              | .error e => .error e
            | '\x7d' :: rest5 => .ok (vobj [(k, v)] [], rest5)
            | _ => .error ("expected comma or closing brace")
        | _ => .error ("expected colon")
    | _ => .error ("expected string key")

end

/-- Modelled from the spec: the host `JSON.parse` on a whole text (without a
reviver): parse one value, allow trailing whitespace only. -/
def jsonParse (text : String) : Except String JSValue :=
  match parseValue (2 * text.data.length + 2) text.data with
  | .ok (v, rest) => if (skipWs rest).isEmpty then .ok v else .error ("unexpected trailing characters")
  | .error e => .error e

/-- A reviver (the optional `filter` argument of `read`): called on each
key/value pair, it may replace the value, drop it (`none`), or throw
(`Except.error`). -/
def Reviver : Type := String → JSValue → Except String (Option JSValue)

/-- Modelled from the spec: the internalization walk of `JSON.parse` with a
reviver, bottom-up: children are revived first (a dropped object member
disappears, a dropped array element leaves an undefined hole), then the
reviver is applied to the pair itself; an error anywhere aborts the walk. -/
def reviveProp (f : Reviver) (key : String) : JSValue → Except String (Option JSValue)
  | varr xs => do
    let xs2 ← goArr xs 0
    f key (varr xs2)
  | vobj own inh => do
    let own2 ← goObj own
    f key (vobj own2 inh)
  | v => f key v
where
  goArr : List JSValue → Nat → Except String (List JSValue)
    | [], _ => pure []
    | x :: rest, i => do
      let r ← reviveProp f (natToDecimal i) x
      let rest2 ← goArr rest (i + 1)
      pure ((r.getD vundef) :: rest2)
  goObj : List (String × JSValue) → Except String (List (String × JSValue))
    | [] => pure []
    | (k, v) :: rest => do
      let r ← reviveProp f k v
      let rest2 ← goObj rest
      pure (match r with
        | some v2 => (k, v2) :: rest2
        | none => rest2)

/-- Modelled from the spec: the host `JSON.parse(text, filter)`: parse, then
run the reviver walk from the root with the empty key; a reviver that drops
the root makes the whole call produce `undefined` (represented as `vundef`). -/
def nativeParse (text : String) (filter : Option Reviver) : Except String JSValue := do
  let v ← jsonParse text
  match filter with
  | none => pure v
  | some f => do
    let r ← reviveProp f ("") v
    pure (r.getD vundef)

/-- The `read` method: when the host has a native JSON object, try
`JSON.parse(json, filter)` and fall through to an undefined result on any
error (the try/catch makes the method total); without native JSON support no
parsing is attempted at all and the result stays undefined.  When `keepData`
is set, the result is cached on the instance.  An `undefined` result is
`none`. -/
def read (inst : JSONFormat) (json : String) (filter : Option Reviver) :
    Option JSValue × JSONFormat :=
  let object : Option JSValue :=
    if inst.nativeJSON then
      match nativeParse json filter with
      | .ok vundef => none
      | .ok v => some v
      | .error _ => none
    else none
  let inst2 := if inst.keepData then { inst with data := object } else inst
  (object, inst2)

/-- The custom serialization path at `pretty = false` collapsed to a pure
function of the value (the indent, newline and space helpers all yield the
empty string there, and the indent level does not influence the output).
The characterization theorem `write_custom_compact` proves that `write`
computes this function whenever `nativeJSON` is off or pretty-printing
disables the fast path. -/
def compactWrite : JSValue → Option String
  | vnull => some ("null")
  | vundef => none
  | vfun => none
  | vbool b => some (serializeBoolean b)
  | vnum n => some (serializeNumber n)
  | vstr s => some (serializeStringJS s)
  | vdate d => some (serializeDate d)
  | varr xs => some ("[" ++ goArr xs 0 ++ "]")
  | vobj own _ => some ("\x7b" ++ goObj own false ++ "\x7d")
where
  goArr : List JSValue → Nat → String
    | [], _ => ""
    | x :: rest, i =>
      (match compactWrite x with
        | some j => (if 0 < i then "," else "") ++ j
        | none => "") ++ goArr rest (i + 1)
  goObj : List (String × JSValue) → Bool → String
    | [], _ => ""
    | (k, v) :: rest, addComma =>
      match compactWrite v with
      | some vj =>
        (if addComma then "," else "") ++ serializeStringJS k ++ ":" ++ vj ++ goObj rest true
      | none => goObj rest addComma

/-- Spec wording of claim C2 (amended): the element at index `i` is emitted
only when it encodes successfully, it leaves no placeholder otherwise, and an
emitted element at a positive index is always preceded by a comma, whether or
not any earlier element was emitted. -/
def specArrayItems : List JSValue → Nat → String
  | [], _ => ""
  | x :: rest, i =>
    (match compactWrite x with
      | some j => (if 0 < i then "," else "") ++ j
      | none => "") ++ specArrayItems rest (i + 1)

/-- Spec wording of claim C5: a key/value pair is emitted as the encoded key,
a colon and the encoded value, and is dropped entirely when the value does
not encode (the key, being a string, always encodes). -/
def specPairItem (p : String × JSValue) : Option String :=
  (compactWrite p.2).map (fun vj => serializeStringJS p.1 ++ ":" ++ vj)

/-- Lowercase hexadecimal digit, following the claim C6 wording. -/
def lowerHexDigit : Nat → Char
  | 0 => '0' | 1 => '1' | 2 => '2' | 3 => '3' | 4 => '4'
  | 5 => '5' | 6 => '6' | 7 => '7' | 8 => '8' | 9 => '9'
  | 10 => 'a' | 11 => 'b' | 12 => 'c' | 13 => 'd' | 14 => 'e'
  | _ => 'f'

/-- Spec wording of claim C6 for a single character: backspace, tab, newline,
form feed, carriage return, double quote and backslash get their
two-character escapes; every other character with code point in 0x00-0x1F
becomes a backslash-u escape whose two lowercase hex digits are
floor(code / 16) and code mod 16; every other character stands for itself. -/
def specEscapeChar (c : Char) : String :=
  if c = '\x08' then "\\b"
  else if c = '\x09' then "\\t"
  else if c = '\x0a' then "\\n"
  else if c = '\x0c' then "\\f"
  else if c = '\x0d' then "\\r"
  else if c = '"' then "\\\""
  else if c = '\\' then "\\\\"
  else if c.toNat < 0x20 then
    "\\u00" ++ String.mk [lowerHexDigit (c.toNat / 16), lowerHexDigit (c.toNat % 16)]
  else String.mk [c]

/-- A value built only from the categories the format supports: no functions
and no undefined anywhere, and plain objects carry no inherited enumerable
properties (a plain JSON object value owns all its data). -/
def supportedB : JSValue → Bool
  | vundef => false
  | vfun => false
  | vnull => true
  | vbool _ => true
  | vnum _ => true
  | vstr _ => true
  | vdate _ => true
  | varr xs => goList xs
  | vobj own inh => goPairs own && inh.isEmpty
where
  goList : List JSValue → Bool
    | [] => true
    | x :: rest => supportedB x && goList rest
  goPairs : List (String × JSValue) → Bool
    | [] => true
    | (_, v) :: rest => supportedB v && goPairs rest

/-- No `Date` occurs anywhere in the value. -/
def dateFreeB : JSValue → Bool
  | vdate _ => false
  | varr xs => goList xs
  | vobj own inh => goPairs own && goPairs inh
  | _ => true
where
  goList : List JSValue → Bool
    | [] => true
    | x :: rest => dateFreeB x && goList rest
  goPairs : List (String × JSValue) → Bool
    | [] => true
    | (_, v) :: rest => dateFreeB v && goPairs rest

/-- Every number occurring in the value is finite. -/
def finiteNumsB : JSValue → Bool
  | vnum n => isFiniteNum n
  | varr xs => goList xs
  | vobj own inh => goPairs own && goPairs inh
  | _ => true
where
  goList : List JSValue → Bool
    | [] => true
    | x :: rest => finiteNumsB x && goList rest
  goPairs : List (String × JSValue) → Bool
    | [] => true
    | (_, v) :: rest => finiteNumsB v && goPairs rest

/-- The image of a value under the native round trip: dates collapse to their
ISO string, non-finite numbers to null, and an object keeps only its own
properties.  Claim C9's two stated exceptions are exactly the cases where
this differs from the identity. -/
def cleanValue : JSValue → JSValue
  | vnull => vnull
  | vundef => vundef
  | vfun => vfun
  | vbool b => vbool b
  | vnum n => if isFiniteNum n then vnum n else vnull
  | vstr s => vstr s
  | vdate d => vstr (toISOString d)
  | varr xs => varr (goList xs)
  | vobj own _ => vobj (goPairs own) []
where
  goList : List JSValue → List JSValue
    | [] => []
    | x :: rest => cleanValue x :: goList rest
  goPairs : List (String × JSValue) → List (String × JSValue)
    | [] => []
    | (k, v) :: rest => (k, cleanValue v) :: goPairs rest

/-- Instrumentation for the indent-level invariant: the minimum value taken
by the `level` field across every state the execution of `write v pretty s`
passes through, obtained by mirroring `write`'s control flow (the serializers
only touch `level` around the array/object loops, so the interior states are
the loop states and the states inside recursive child calls). -/
def minLevelWrite (v : JSValue) (pretty : Bool) (s : JSONFormat) : Int :=
  let s1 := { s with pretty := pretty }
  if hasSerializer (typeofStr v) then
    if !s1.pretty && s1.nativeJSON then s1.level
    else
      match v with
      | varr xs => min s1.level (goList xs { s1 with level := s1.level + 1 })
      | vobj own _ => min s1.level (goPairs own { s1 with level := s1.level + 1 })
      | _ => s1.level
  else s1.level
where
  goList : List JSValue → JSONFormat → Int
    | [], s => s.level
    | x :: rest, s =>
      min (minLevelWrite x s.pretty s) (goList rest (write x s.pretty s).2)
  goPairs : List (String × JSValue) → JSONFormat → Int
    | [], s => s.level
    | (k, v) :: rest, s =>
      let sk := (writeString k s.pretty s).2
      min (minLevelWrite v sk.pretty sk) (goPairs rest (write v sk.pretty sk).2)

theorem joinPieces_nil : joinPieces [] = "" := rfl

theorem joinPieces_cons (a : String) (l : List String) :
    joinPieces (a :: l) = a ++ joinPieces l := rfl

theorem joinPieces_append (l1 l2 : List String) :
    joinPieces (l1 ++ l2) = joinPieces l1 ++ joinPieces l2 := by
  induction l1 with
  | nil => simp [joinPieces_nil, String.empty_append]
  | cons a t ih => simp [joinPieces_cons, ih, String.append_assoc]

theorem joinPieces_data (l : List String) :
    (joinPieces l).data = (l.map String.data).flatten := by
  induction l with
  | nil => rfl
  | cons a t ih => simp [joinPieces_cons, String.data_append, ih]

theorem commaJoin_cons (a : String) (l : List String) :
    commaJoin (a :: l) = a ++ joinPieces (l.map (fun x => "," ++ x)) := by
  induction l generalizing a with
  | nil => simp [commaJoin, joinPieces_nil, String.append_empty]
  | cons b t ih => simp [commaJoin, ih b, joinPieces_cons, String.append_assoc]

theorem JSONFormat.eta_pretty (s : JSONFormat) (p : Bool) (h : s.pretty = p) :
    ({ s with pretty := p } : JSONFormat) = s := by
  cases s
  simp_all

theorem JSONFormat.eta_level (s : JSONFormat) (l : Int) (h : s.level = l) :
    ({ s with level := l } : JSONFormat) = s := by
  cases s
  simp_all

theorem JSValue.inductionOn (P : JSValue → Prop)
    (hnull : P vnull) (hundef : P vundef) (hfn : P vfun)
    (hbool : ∀ b, P (vbool b)) (hnum : ∀ n, P (vnum n)) (hstr : ∀ s, P (vstr s))
    (hdate : ∀ d, P (vdate d))
    (harr : ∀ xs, (∀ x ∈ xs, P x) → P (varr xs))
    (hobj : ∀ own inh, (∀ p ∈ own, P p.2) → (∀ p ∈ inh, P p.2) → P (vobj own inh)) :
    ∀ v, P v := by
  have key : ∀ (n : Nat) (v : JSValue), sizeOf v ≤ n → P v := by
    intro n
    induction n with
    | zero =>
      intro v hv
      cases v <;> simp_arith at hv
    | succ n ih =>
      intro v hv
      cases v with
      | vnull => exact hnull
      | vundef => exact hundef
      | vfun => exact hfn
      | vbool b => exact hbool b
      | vnum m => exact hnum m
      | vstr s => exact hstr s
      | vdate d => exact hdate d
      | varr xs =>
        refine harr xs (fun x hx => ih x ?_)
        have h1 := List.sizeOf_lt_of_mem hx
        simp only [JSValue.varr.sizeOf_spec] at hv
        omega
      | vobj own inh =>
        refine hobj own inh (fun p hp => ih p.2 ?_) (fun p hp => ih p.2 ?_)
        · have h1 := List.sizeOf_lt_of_mem hp
          have h2 : sizeOf p.2 < sizeOf p := by
            cases p with
            | mk a b => simp_arith
          simp only [JSValue.vobj.sizeOf_spec] at hv
          omega
        · have h1 := List.sizeOf_lt_of_mem hp
          have h2 : sizeOf p.2 < sizeOf p := by
            cases p with
            | mk a b => simp_arith
          simp only [JSValue.vobj.sizeOf_spec] at hv
          omega
  intro v
  exact key (sizeOf v) v le_rfl

/-- The object serializer's recursive call on a property key agrees with the
specialization `writeString` used in the embedding. -/
theorem write_vstr (k : String) (p : Bool) (s : JSONFormat) :
    write (vstr k) p s = writeString k p s := by
  simp [write, writeString, typeofStr, hasSerializer]

theorem arrElems_state (xs : List JSValue)
    (hIH : ∀ x ∈ xs, ∀ (p : Bool) (s : JSONFormat), (write x p s).2 = { s with pretty := p }) :
    ∀ (i : Nat) (s : JSONFormat), (write.arrElems xs i s).2 = s := by
  induction xs with
  | nil => intro i s; rfl
  | cons x rest ih =>
    intro i s
    have hr := ih (fun y hy => hIH y (List.mem_cons_of_mem x hy))
    have hx : (write x s.pretty s).2 = s := by
      rw [hIH x (List.mem_cons_self x rest) s.pretty s]
    simp only [write.arrElems, hx]
    exact hr (i + 1) s

theorem ownPairs_state (own : List (String × JSValue))
    (hIH : ∀ q ∈ own, ∀ (p : Bool) (s : JSONFormat), (write q.2 p s).2 = { s with pretty := p }) :
    ∀ (ac : Bool) (s : JSONFormat), (write.ownPairs own ac s).2 = s := by
  induction own with
  | nil => intro ac s; rfl
  | cons q rest ih =>
    intro ac s
    obtain ⟨k, v⟩ := q
    have hr := ih (fun y hy => hIH y (List.mem_cons_of_mem (k, v) hy))
    have hk : (writeString k s.pretty s).2 = s := by
      simp only [writeString]
      split <;> exact JSONFormat.eta_pretty s s.pretty rfl
    have hv : (write v s.pretty s).2 = s := by
      rw [hIH (k, v) (List.mem_cons_self (k, v) rest) s.pretty s]
    simp only [write.ownPairs, hk, hv]
    cases hkj : (writeString k s.pretty s).1 <;>
      cases hvj : (write v s.pretty s).1 <;>
        simp only [] <;> first | exact hr ac s | exact hr true s

theorem write_state (v : JSValue) : ∀ (p : Bool) (s : JSONFormat),
    (write v p s).2 = { s with pretty := p } := by
  induction v using JSValue.inductionOn with
  | hnull =>
    intro p s
    simp only [write]
    split
    · split <;> rfl
    · rfl
  | hundef => intro p s; rfl
  | hfn => intro p s; rfl
  | hbool b =>
    intro p s
    simp only [write]
    split
    · split <;> rfl
    · rfl
  | hnum n =>
    intro p s
    simp only [write]
    split
    · split <;> rfl
    · rfl
  | hstr str =>
    intro p s
    simp only [write]
    split
    · split <;> rfl
    · rfl
  | hdate d =>
    intro p s
    simp only [write]
    split
    · split <;> rfl
    · rfl
  | harr xs hIH =>
    intro p s
    simp only [write]
    split
    · split
      · rfl
      · simp only [arrElems_state xs hIH]
        cases s
        simp
    · rfl
  | hobj own inh hIH hIH2 =>
    intro p s
    simp only [write]
    split
    · split
      · rfl
      · simp only [ownPairs_state own hIH]
        cases s
        simp
    · rfl

theorem writeNewline_false (s : JSONFormat) (h : s.pretty = false) : writeNewline s = "" := by
  simp [writeNewline, h]

theorem writeIndent_false (s : JSONFormat) (h : s.pretty = false) : writeIndent s = "" := by
  simp [writeIndent, h]

theorem writeSpace_false (s : JSONFormat) (h : s.pretty = false) : writeSpace s = "" := by
  simp [writeSpace, h]

theorem arrElems_join (xs : List JSValue)
    (hIH : ∀ x ∈ xs, ∀ s : JSONFormat, s.nativeJSON = false →
      write x false s = (compactWrite x, { s with pretty := false })) :
    ∀ (i : Nat) (s : JSONFormat), s.nativeJSON = false → s.pretty = false →
      joinPieces (write.arrElems xs i s).1 = compactWrite.goArr xs i := by
  induction xs with
  | nil => intro i s _ _; rfl
  | cons x rest ih =>
    intro i s hn hp
    have hir := ih (fun y hy => hIH y (List.mem_cons_of_mem x hy)) (i + 1) s hn hp
    have hx : write x s.pretty s = (compactWrite x, s) := by
      rw [hp, hIH x (List.mem_cons_self x rest) s hn, JSONFormat.eta_pretty s false hp]
    simp only [write.arrElems, hx]
    cases hcx : compactWrite x with
    | none =>
      simp only [compactWrite.goArr, hcx]
      simpa using hir
    | some j =>
      simp only [compactWrite.goArr, hcx]
      by_cases hi : 0 < i <;>
        simp [hi, joinPieces_append, joinPieces_cons,
          writeNewline_false s hp, writeIndent_false s hp, hir, String.append_assoc]

theorem ownPairs_join (own : List (String × JSValue))
    (hIH : ∀ q ∈ own, ∀ s : JSONFormat, s.nativeJSON = false →
      write q.2 false s = (compactWrite q.2, { s with pretty := false })) :
    ∀ (ac : Bool) (s : JSONFormat), s.nativeJSON = false → s.pretty = false →
      joinPieces (write.ownPairs own ac s).1 = compactWrite.goObj own ac := by
  induction own with
  | nil => intro ac s _ _; rfl
  | cons q rest ih =>
    intro ac s hn hp
    obtain ⟨k, v⟩ := q
    have hirT := ih (fun y hy => hIH y (List.mem_cons_of_mem (k, v) hy)) true s hn hp
    have hirA := ih (fun y hy => hIH y (List.mem_cons_of_mem (k, v) hy)) ac s hn hp
    have hk : writeString k s.pretty s = (some (serializeStringJS k), s) := by
      simp only [writeString, hp]
      rw [JSONFormat.eta_pretty s false hp]
      simp [hn]
    have hv : write v s.pretty s = (compactWrite v, s) := by
      rw [hp, hIH (k, v) (List.mem_cons_self (k, v) rest) s hn, JSONFormat.eta_pretty s false hp]
    simp only [write.ownPairs, hk, hv]
    cases hcv : compactWrite v with
    | none =>
      simp only [compactWrite.goObj, hcv]
      simpa using hirA
    | some vj =>
      simp only [compactWrite.goObj, hcv]
      cases ac <;>
        simp [joinPieces_append, joinPieces_cons,
          writeNewline_false s hp, writeIndent_false s hp, writeSpace_false s hp,
          hirT, String.append_assoc]

theorem write_custom_compact (v : JSValue) : ∀ s : JSONFormat, s.nativeJSON = false →
    write v false s = (compactWrite v, { s with pretty := false }) := by
  induction v using JSValue.inductionOn with
  | hnull => intro s hn; simp [write, hn, compactWrite, typeofStr, hasSerializer]
  | hundef => intro s hn; simp [write, hn, compactWrite, typeofStr, hasSerializer]
  | hfn => intro s hn; simp [write, hn, compactWrite, typeofStr, hasSerializer]
  | hbool b => intro s hn; simp [write, hn, compactWrite, typeofStr, hasSerializer]
  | hnum n => intro s hn; simp [write, hn, compactWrite, typeofStr, hasSerializer]
  | hstr str => intro s hn; simp [write, hn, compactWrite, typeofStr, hasSerializer]
  | hdate d => intro s hn; simp [write, hn, compactWrite, typeofStr, hasSerializer]
  | harr xs hIH =>
    intro s hn
    obtain ⟨ind, sp, nl, lv, pr, nj, kd, da⟩ := s
    simp only at hn
    subst hn
    have hst := arrElems_state xs (fun x _ => write_state x) 0 ⟨ind, sp, nl, lv + 1, false, false, kd, da⟩
    have hjoin := arrElems_join xs hIH 0 ⟨ind, sp, nl, lv + 1, false, false, kd, da⟩ rfl rfl
    simp [write, typeofStr, hasSerializer, writeNewline, writeIndent, hst, hjoin,
      joinPieces_append, joinPieces_cons, joinPieces_nil, compactWrite, String.append_assoc,
      String.append_empty, String.empty_append]
  | hobj own inh hIH hIH2 =>
    intro s hn
    obtain ⟨ind, sp, nl, lv, pr, nj, kd, da⟩ := s
    simp only at hn
    subst hn
    have hst := ownPairs_state own (fun q _ => write_state q.2) false ⟨ind, sp, nl, lv + 1, false, false, kd, da⟩
    have hjoin := ownPairs_join own hIH false ⟨ind, sp, nl, lv + 1, false, false, kd, da⟩ rfl rfl
    simp [write, typeofStr, hasSerializer, writeNewline, writeIndent, hst, hjoin,
      joinPieces_append, joinPieces_cons, joinPieces_nil, compactWrite, String.append_assoc,
      String.append_empty, String.empty_append]

theorem writeString_state (k : String) (p : Bool) (s : JSONFormat) :
    (writeString k p s).2 = { s with pretty := p } := by
  simp only [writeString]
  split <;> rfl

theorem minLevel_goList (xs : List JSValue)
    (hIH : ∀ x ∈ xs, ∀ (p : Bool) (s : JSONFormat), minLevelWrite x p s = s.level) :
    ∀ s : JSONFormat, minLevelWrite.goList xs s = s.level := by
  induction xs with
  | nil => intro s; rfl
  | cons x rest ih =>
    intro s
    have hw : (write x s.pretty s).2 = s := by rw [write_state]
    simp only [minLevelWrite.goList, hw, hIH x (List.mem_cons_self x rest) s.pretty s,
      ih (fun y hy => hIH y (List.mem_cons_of_mem x hy)) s, min_self]

theorem minLevel_goPairs (own : List (String × JSValue))
    (hIH : ∀ q ∈ own, ∀ (p : Bool) (s : JSONFormat), minLevelWrite q.2 p s = s.level) :
    ∀ s : JSONFormat, minLevelWrite.goPairs own s = s.level := by
  induction own with
  | nil => intro s; rfl
  | cons q rest ih =>
    intro s
    obtain ⟨k, v⟩ := q
    have hk : (writeString k s.pretty s).2 = s := by rw [writeString_state]
    have hw : (write v s.pretty s).2 = s := by rw [write_state]
    simp only [minLevelWrite.goPairs, hk, hw,
      hIH (k, v) (List.mem_cons_self (k, v) rest) s.pretty s,
      ih (fun y hy => hIH y (List.mem_cons_of_mem (k, v) hy)) s, min_self]

theorem minLevelWrite_eq (v : JSValue) : ∀ (p : Bool) (s : JSONFormat),
    minLevelWrite v p s = s.level := by
  induction v using JSValue.inductionOn with
  | hnull => intro p s; simp only [minLevelWrite]; split <;> [split <;> rfl; rfl]
  | hundef => intro p s; rfl
  | hfn => intro p s; rfl
  | hbool b => intro p s; simp only [minLevelWrite]; split <;> [split <;> rfl; rfl]
  | hnum n => intro p s; simp only [minLevelWrite]; split <;> [split <;> rfl; rfl]
  | hstr str => intro p s; simp only [minLevelWrite]; split <;> [split <;> rfl; rfl]
  | hdate d => intro p s; simp only [minLevelWrite]; split <;> [split <;> rfl; rfl]
  | harr xs hIH =>
    intro p s
    simp only [minLevelWrite]
    split
    · split
      · rfl
      · rw [minLevel_goList xs hIH]
        simp only []
        omega
    · rfl
  | hobj own inh hIH hIH2 =>
    intro p s
    simp only [minLevelWrite]
    split
    · split
      · rfl
      · rw [minLevel_goPairs own hIH]
        simp only []
        omega
    · rfl

theorem goArr_eq_specArrayItems (xs : List JSValue) : ∀ i : Nat,
    compactWrite.goArr xs i = specArrayItems xs i := by
  induction xs with
  | nil => intro i; rfl
  | cons x rest ih => intro i; simp only [compactWrite.goArr, specArrayItems, ih]

theorem goObj_true_eq (own : List (String × JSValue)) :
    compactWrite.goObj own true =
      joinPieces ((own.filterMap specPairItem).map (fun x => "," ++ x)) := by
  induction own with
  | nil => rfl
  | cons q rest ih =>
    obtain ⟨k, v⟩ := q
    cases hcv : compactWrite v with
    | none => simp [compactWrite.goObj, specPairItem, hcv, ih]
    | some vj =>
      simp [compactWrite.goObj, specPairItem, hcv, ih, joinPieces_cons, String.append_assoc]

theorem goObj_false_eq (own : List (String × JSValue)) :
    compactWrite.goObj own false = commaJoin (own.filterMap specPairItem) := by
  induction own with
  | nil => rfl
  | cons q rest ih =>
    obtain ⟨k, v⟩ := q
    cases hcv : compactWrite v with
    | none => simp [compactWrite.goObj, specPairItem, hcv, ih]
    | some vj =>
      simp [compactWrite.goObj, specPairItem, hcv, goObj_true_eq rest, commaJoin_cons,
        String.append_assoc, String.empty_append]

/-- Claim C2 (amended): in the custom array serializer a skipped element
leaves no placeholder, and the comma decision is made from the element's
index, not from whether an earlier element was emitted: an emitted element at
a positive index is always preceded by a comma (so skipping a middle element
yields no double comma, but skipping the first element puts a leading comma
before the first emitted element). -/
theorem C2_array_skip_amended (xs : List JSValue) (s : JSONFormat)
    (h : s.nativeJSON = false) :
    (write (varr xs) false s).1 = some ("[" ++ specArrayItems xs 0 ++ "]") := by
  rw [write_custom_compact (varr xs) s h]
  simp only [compactWrite, goArr_eq_specArrayItems]

theorem C2_array_skip_amended_witness :
    ({ nativeJSON := false } : JSONFormat).nativeJSON = false ∧
    (write (varr [vfun, vnum (.fin 2)]) false { nativeJSON := false }).1 =
      some ("[" ++ specArrayItems [vfun, vnum (.fin 2)] 0 ++ "]") :=
  ⟨rfl, C2_array_skip_amended [vfun, vnum (.fin 2)] { nativeJSON := false } rfl⟩

/-- Claim C2 counterexample: with the first element unserializable, the array
serializer emits a comma on its account: the result is the string with a
leading comma before the first emitted element, not the comma-free form the
claim requires. -/
theorem C2_counterexample :
    (write (varr [vfun, vnum (.fin 2)]) false { nativeJSON := false }).1 = some ("[,2]") ∧
    ("[,2]" : String) ≠ ("[2]" : String) :=
  ⟨rfl, by decide⟩

/-- Claim C3: a top-level `write` call restores the indent level exactly (the
final `level` equals the initial one for every value, every pretty flag and
every starting state, including values with unserializable children), and the
level never drops below its starting point at any state the call passes
through, so it is never negative when it starts non-negative.  In this
embedding the serializers are total functions; the error that `write`'s
try/catch can swallow is modelled by the `none` (unserializable) outcome. -/
theorem C3_level_invariant (v : JSValue) (p : Bool) (s : JSONFormat) :
    ((write v p s).2).level = s.level ∧
    minLevelWrite v p s = s.level ∧
    (0 ≤ s.level → 0 ≤ minLevelWrite v p s) := by
  refine ⟨?_, minLevelWrite_eq v p s, ?_⟩
  · rw [write_state]
  · intro h
    rw [minLevelWrite_eq v p s]
    exact h

theorem C3_level_invariant_witness :
    ((write (varr [vobj [("a", varr [vnull, vfun])] []]) true ({} : JSONFormat)).2).level
        = ({} : JSONFormat).level ∧
    minLevelWrite (varr [vobj [("a", varr [vnull, vfun])] []]) true ({} : JSONFormat)
        = ({} : JSONFormat).level ∧
    0 ≤ minLevelWrite (varr [vobj [("a", varr [vnull, vfun])] []]) true ({} : JSONFormat) := by
  obtain ⟨h1, h2, h3⟩ := C3_level_invariant (varr [vobj [("a", varr [vnull, vfun])] []]) true {}
  exact ⟨h1, h2, h3 (by decide)⟩

/-- The concrete date of claim C4, with its UTC projection equal to its local
projection (a host whose time-zone offset is zero). -/
def date2024 : JSDate := ⟨2024, 0, 5, 9, 3, 7, 2024, 0, 5, 9, 3, 7, 0⟩

/-- Claim C4 (amended): on an instance whose `nativeJSON` flag is false, so
that the custom `serialize.date` runs, `write` on the date 2024-01-05
09:03:07 with pretty disabled returns exactly the quoted 21-character string
with unpadded year, 1-indexed month and two-digit padded fields. -/
theorem C4_date_format_amended :
    (write (vdate date2024) false { nativeJSON := false }).1
        = some ("\"2024-01-05T09:03:07\"") ∧
    ("\"2024-01-05T09:03:07\"" : String).length = 21 :=
  ⟨rfl, by decide⟩

/-- Claim C4 counterexample: on the default instance (`nativeJSON` true, the
common browser case) the same call takes the native fast path and returns the
ISO-UTC form with milliseconds and a Z suffix, not the claimed string — even
on a host whose time-zone offset is zero. -/
theorem C4_counterexample :
    (write (vdate date2024) false ({} : JSONFormat)).1
        = some ("\"2024-01-05T09:03:07.000Z\"") ∧
    ("\"2024-01-05T09:03:07.000Z\"" : String) ≠ ("\"2024-01-05T09:03:07\"" : String) :=
  ⟨rfl, by decide⟩

/-- Claim C5: the custom object serializer emits only the object's own
enumerable properties (the inherited ones leave no trace), each emitted pair
is the encoded key, a colon and the encoded value, a pair whose value fails
to encode is skipped without a comma while the rest continue, and commas
appear exactly between emitted pairs; in particular an object with one
serializable and one function-valued property serializes as if the latter
were absent. -/
theorem C5_object_own_pairs (own inh : List (String × JSValue)) (s : JSONFormat)
    (h : s.nativeJSON = false) :
    (write (vobj own inh) false s).1 = (write (vobj own []) false s).1 ∧
    (write (vobj own inh) false s).1 =
      some ("\x7b" ++ commaJoin (own.filterMap specPairItem) ++ "\x7d") ∧
    (write (vobj [("a", vnum (.fin 1)), ("b", vfun)] []) false { nativeJSON := false }).1
        = some ("\x7b\"a\":1\x7d") := by
  refine ⟨?_, ?_, rfl⟩
  · rw [write_custom_compact (vobj own inh) s h, write_custom_compact (vobj own []) s h]
    rfl
  · rw [write_custom_compact (vobj own inh) s h]
    simp only [compactWrite, goObj_false_eq]

theorem C5_object_own_pairs_witness :
    ({ nativeJSON := false } : JSONFormat).nativeJSON = false ∧
    (write (vobj [("a", vnum (.fin 1))] [("p", vbool true)]) false { nativeJSON := false }).1 =
      some ("\x7b" ++
        commaJoin ([("a", vnum (.fin 1))].filterMap specPairItem) ++ "\x7d") :=
  ⟨rfl, (C5_object_own_pairs [("a", vnum (.fin 1))] [("p", vbool true)]
    { nativeJSON := false } rfl).2.1⟩

/-- Claim C8: `write` returns the unserializable outcome (null) exactly when
`typeof value` has no entry in the serialize table, which happens exactly for
the unsupported categories (undefined and functions); for every value of a
supported category the result is a string.  In this embedding the serializers
are total, so the try/catch in `write` never fires; the null outcome comes
only from the missing-serializer test. -/
theorem C8_unsupported_null (v : JSValue) (p : Bool) (s : JSONFormat) :
    ((write v p s).1 = none ↔ hasSerializer (typeofStr v) = false) ∧
    (hasSerializer (typeofStr v) = false ↔ (v = vundef ∨ v = vfun)) := by
  cases v <;>
    constructor <;>
      simp [write, typeofStr, hasSerializer, nativeStringify] <;>
        split <;> simp

theorem C7_parse_error : nativeParse ("\x7bnot valid json") none = .error ("expected string key") := rfl

/-- Claim C7: `read` never propagates a parse failure: whenever the host
parser (with any transform) raises, `read` returns the undefined sentinel
(`none`); in particular on the malformed text of the claim it returns the
sentinel for every instance and every transform. -/
theorem C7_read_fail_soft (inst : JSONFormat) (text : String) (filter : Option Reviver) :
    (∀ e, nativeParse text filter = .error e → (read inst text filter).1 = none) ∧
    (read inst ("\x7bnot valid json") filter).1 = none := by
  constructor
  · intro e he
    simp [read, he]
  · cases hf : filter with
    | none =>
      cases hnj : inst.nativeJSON <;> simp [read, hnj, C7_parse_error]
    | some f =>
      have he : nativeParse ("\x7bnot valid json") (some f) = .error ("expected string key") := rfl
      cases hnj : inst.nativeJSON <;> simp [read, hnj, he]

theorem C7_read_fail_soft_witness :
    nativeParse ("\x7bnot valid json") none = .error ("expected string key") ∧
    (read ({} : JSONFormat) ("\x7bnot valid json") none).1 = none :=
  ⟨C7_parse_error,
    (C7_read_fail_soft ({} : JSONFormat) ("\x7bnot valid json") none).1
      ("expected string key") C7_parse_error⟩

/-- Claim C10: when the instance's `nativeJSON` flag is false, `read` returns
the undefined sentinel for every input text and every transform — no parsing
is attempted and there is no fallback parser — even on well-formed JSON text
that the host parser would accept (second conjunct: the model parser does
accept the sample text). -/
theorem C10_no_native_no_parse (inst : JSONFormat) (text : String) (filter : Option Reviver)
    (h : inst.nativeJSON = false) :
    (read inst text filter).1 = none ∧
    nativeParse ("[1,2]") none = .ok (varr [vnum (.fin 1), vnum (.fin 2)]) := by
  refine ⟨?_, rfl⟩
  simp [read, h]

theorem C10_no_native_no_parse_witness :
    (read ({ nativeJSON := false } : JSONFormat) ("[1,2]") none).1 = none ∧
    nativeParse ("[1,2]") none = .ok (varr [vnum (.fin 1), vnum (.fin 2)]) :=
  C10_no_native_no_parse { nativeJSON := false } ("[1,2]") none rfl

theorem joinPieces_singletons (l : List Char) :
    joinPieces (l.map (fun c => String.mk [c])) = String.mk l := by
  induction l with
  | nil => rfl
  | cons c t ih =>
    simp only [List.map_cons, joinPieces_cons, ih]
    rfl

theorem lowerHexDigit_eq_digitChar : ∀ n < 16, lowerHexDigit n = Nat.digitChar n := by decide

theorem escapeChar_pointwise (c : Char) :
    (if escapeClassJS c then escapeCharJS c else String.mk [c]) = specEscapeChar c := by
  by_cases h08 : c = '\x08'
  · subst h08; decide
  by_cases h09 : c = '\x09'
  · subst h09; decide
  by_cases h0a : c = '\x0a'
  · subst h0a; decide
  by_cases h0c : c = '\x0c'
  · subst h0c; decide
  by_cases h0d : c = '\x0d'
  · subst h0d; decide
  by_cases h22 : c = '"'
  · subst h22; decide
  by_cases h5c : c = '\\'
  · subst h5c; decide
  by_cases hctl : c.toNat < 0x20
  · have e1 : lowerHexDigit (c.toNat / 16) = Nat.digitChar (c.toNat / 16) :=
      lowerHexDigit_eq_digitChar _ (by omega)
    have e2 : lowerHexDigit (c.toNat % 16) = Nat.digitChar (c.toNat % 16) :=
      lowerHexDigit_eq_digitChar _ (by omega)
    simp [escapeClassJS, escapeCharJS, escapeMapJS, specEscapeChar,
      h08, h09, h0a, h0c, h0d, h22, h5c, hctl, e1, e2]
  · simp [escapeClassJS, specEscapeChar, h08, h09, h0a, h0c, h0d, h22, h5c, hctl]

/-- Claim C6: when the string has no character with code point below 0x20, no
double quote and no backslash, the string serializer wraps it in double
quotes unchanged; in every case its output is the quoted string in which each
of the seven named characters is replaced by its two-character escape, every
other character with code point in 0x00-0x1F by the backslash-u escape whose
two lowercase hex digits are floor(code/16) and code mod 16, and every other
character by itself. -/
theorem C6_string_escaping (str : String) :
    (str.data.all (fun c => !(decide (c.toNat < 0x20) || decide (c = '"') || decide (c = '\\')))
        = true →
      serializeStringJS str = "\"" ++ str ++ "\"") ∧
    serializeStringJS str = "\"" ++ joinPieces (str.data.map specEscapeChar) ++ "\"" := by
  have hclass : ∀ c : Char,
      escapeClassJS c = (decide (c.toNat < 0x20) || decide (c = '"') || decide (c = '\\')) := by
    intro c
    simp only [escapeClassJS]
    cases decide (c.toNat < 32) <;> cases decide (c = '"') <;> cases decide (c = '\\') <;> rfl
  constructor
  · intro hall
    have hnone : str.data.any escapeClassJS = false := by
      rw [List.any_eq_false]
      intro c hc
      have := List.all_eq_true.mp hall c hc
      rw [hclass c]
      simpa using this
    simp [serializeStringJS, hnone]
  · by_cases hany : str.data.any escapeClassJS
    · simp only [serializeStringJS, hany, if_pos]
      have : (str.data.map (fun c => if escapeClassJS c then escapeCharJS c else String.mk [c]))
          = str.data.map specEscapeChar :=
        List.map_congr_left (fun c _ => escapeChar_pointwise c)
      rw [this]
    · have hnone : str.data.any escapeClassJS = false := by simpa using hany
      have hmap : str.data.map specEscapeChar = str.data.map (fun c => String.mk [c]) := by
        refine List.map_congr_left (fun c hc => ?_)
        have hcf : escapeClassJS c = false := by
          simpa using (List.any_eq_false.mp hnone) c hc
        rw [← escapeChar_pointwise c, hcf]
        simp
      rw [hmap]
      simp [serializeStringJS, hnone, joinPieces_singletons]

theorem C6_string_escaping_witness :
    serializeStringJS ("ab") = "\"" ++ ("ab" : String) ++ "\"" ∧
    serializeStringJS ("a\nb") =
      "\"" ++ joinPieces (("a\nb" : String).data.map specEscapeChar) ++ "\"" :=
  ⟨(C6_string_escaping ("ab")).1 (by decide), (C6_string_escaping ("a\nb")).2⟩

theorem nativeEscapeChar_eq (c : Char) : nativeEscapeChar c = specEscapeChar c := by
  by_cases h08 : c = '\x08'
  · subst h08; decide
  by_cases h09 : c = '\x09'
  · subst h09; decide
  by_cases h0a : c = '\x0a'
  · subst h0a; decide
  by_cases h0c : c = '\x0c'
  · subst h0c; decide
  by_cases h0d : c = '\x0d'
  · subst h0d; decide
  by_cases h22 : c = '"'
  · subst h22; decide
  by_cases h5c : c = '\\'
  · subst h5c; decide
  by_cases hctl : c.toNat < 0x20
  · have e0 : c.toNat / 4096 % 16 = 0 := by omega
    have e1 : c.toNat / 256 % 16 = 0 := by omega
    have e2 : c.toNat / 16 % 16 = c.toNat / 16 := by omega
    have e3 : lowerHexDigit (c.toNat / 16) = Nat.digitChar (c.toNat / 16) :=
      lowerHexDigit_eq_digitChar _ (by omega)
    have e4 : lowerHexDigit (c.toNat % 16) = Nat.digitChar (c.toNat % 16) :=
      lowerHexDigit_eq_digitChar _ (by omega)
    simp only [nativeEscapeChar, specEscapeChar, h08, h09, h0a, h0c, h0d, h22, h5c, hctl,
      if_true, if_false, e0, e1, e2, e3, e4]
    rfl
  · simp [nativeEscapeChar, specEscapeChar, h08, h09, h0a, h0c, h0d, h22, h5c, hctl]

theorem nativeQuote_eq (s : String) : nativeQuote s = serializeStringJS s := by
  have hmap : s.data.map nativeEscapeChar =
      s.data.map (fun c => if escapeClassJS c then escapeCharJS c else String.mk [c]) := by
    refine List.map_congr_left (fun c _ => ?_)
    rw [nativeEscapeChar_eq, escapeChar_pointwise]
  by_cases hany : s.data.any escapeClassJS
  · simp only [nativeQuote, serializeStringJS, hany, if_pos, hmap]
  · have hnone : s.data.any escapeClassJS = false := by simpa using hany
    have hmap2 : s.data.map nativeEscapeChar = s.data.map (fun c => String.mk [c]) := by
      rw [hmap]
      refine List.map_congr_left (fun c hc => ?_)
      have hcf : escapeClassJS c = false := by
        simpa using (List.any_eq_false.mp hnone) c hc
      simp [hcf]
    simp [nativeQuote, serializeStringJS, hnone, hmap2, joinPieces_singletons]

theorem supported_goList_mem (xs : List JSValue) (h : supportedB.goList xs = true) :
    ∀ x ∈ xs, supportedB x = true := by
  induction xs with
  | nil => intro x hx; cases hx
  | cons y rest ih =>
    simp only [supportedB.goList, Bool.and_eq_true] at h
    intro x hx
    rcases List.mem_cons.mp hx with rfl | hx2
    · exact h.1
    · exact ih h.2 x hx2

theorem supported_goPairs_mem (own : List (String × JSValue)) (h : supportedB.goPairs own = true) :
    ∀ q ∈ own, supportedB q.2 = true := by
  induction own with
  | nil => intro q hq; cases hq
  | cons y rest ih =>
    obtain ⟨k, v⟩ := y
    simp only [supportedB.goPairs, Bool.and_eq_true] at h
    intro q hq
    rcases List.mem_cons.mp hq with rfl | hq2
    · exact h.1
    · exact ih h.2 q hq2

theorem dateFree_goList_mem (xs : List JSValue) (h : dateFreeB.goList xs = true) :
    ∀ x ∈ xs, dateFreeB x = true := by
  induction xs with
  | nil => intro x hx; cases hx
  | cons y rest ih =>
    simp only [dateFreeB.goList, Bool.and_eq_true] at h
    intro x hx
    rcases List.mem_cons.mp hx with rfl | hx2
    · exact h.1
    · exact ih h.2 x hx2

theorem dateFree_goPairs_mem (own : List (String × JSValue)) (h : dateFreeB.goPairs own = true) :
    ∀ q ∈ own, dateFreeB q.2 = true := by
  induction own with
  | nil => intro q hq; cases hq
  | cons y rest ih =>
    obtain ⟨k, v⟩ := y
    simp only [dateFreeB.goPairs, Bool.and_eq_true] at h
    intro q hq
    rcases List.mem_cons.mp hq with rfl | hq2
    · exact h.1
    · exact ih h.2 q hq2

theorem compactWrite_some (v : JSValue) (h : supportedB v = true) :
    ∃ j, compactWrite v = some j := by
  cases v <;> simp [compactWrite] <;> simp [supportedB] at h

theorem goElems_eq (xs : List JSValue)
    (h : ∀ x ∈ xs, nativeStringify x = compactWrite x) :
    nativeStringify.goElems xs = xs.map (fun x => (compactWrite x).getD ("null")) := by
  induction xs with
  | nil => rfl
  | cons y rest ih =>
    simp only [nativeStringify.goElems, List.map_cons,
      h y (List.mem_cons_self y rest), ih (fun x hx => h x (List.mem_cons_of_mem y hx))]

theorem goArr_pos (xs : List JSValue)
    (hsome : ∀ x ∈ xs, ∃ j, compactWrite x = some j) : ∀ i : Nat,
    compactWrite.goArr xs (i + 1) =
      joinPieces (xs.map (fun x => "," ++ (compactWrite x).getD ("null"))) := by
  induction xs with
  | nil => intro i; rfl
  | cons y rest ih =>
    intro i
    obtain ⟨j, hj⟩ := hsome y (List.mem_cons_self y rest)
    simp only [compactWrite.goArr, hj, List.map_cons, joinPieces_cons,
      ih (fun x hx => hsome x (List.mem_cons_of_mem y hx)) (i + 1)]
    simp [String.append_assoc]

theorem goArr_zero (xs : List JSValue)
    (hsome : ∀ x ∈ xs, ∃ j, compactWrite x = some j) :
    compactWrite.goArr xs 0 =
      commaJoin (xs.map (fun x => (compactWrite x).getD ("null"))) := by
  cases xs with
  | nil => rfl
  | cons y rest =>
    obtain ⟨j, hj⟩ := hsome y (List.mem_cons_self y rest)
    simp only [compactWrite.goArr, hj, List.map_cons, commaJoin_cons,
      goArr_pos rest (fun x hx => hsome x (List.mem_cons_of_mem y hx)) 0]
    simp [List.map_map, String.empty_append]
    rfl

theorem goMembers_eq (own : List (String × JSValue))
    (heq : ∀ q ∈ own, nativeStringify q.2 = compactWrite q.2)
    (hsome : ∀ q ∈ own, ∃ j, compactWrite q.2 = some j) :
    nativeStringify.goMembers own = own.filterMap specPairItem := by
  induction own with
  | nil => rfl
  | cons y rest ih =>
    obtain ⟨k, v⟩ := y
    obtain ⟨j, hj⟩ := hsome (k, v) (List.mem_cons_self (k, v) rest)
    have hv : nativeStringify v = some j := by
      rw [heq (k, v) (List.mem_cons_self (k, v) rest)]; exact hj
    simp only [nativeStringify.goMembers, hv, List.filterMap_cons, specPairItem, hj,
      Option.map_some, nativeQuote_eq,
      ih (fun q hq => heq q (List.mem_cons_of_mem (k, v) hq))
        (fun q hq => hsome q (List.mem_cons_of_mem (k, v) hq))]
    rfl

theorem native_eq_compact (v : JSValue) : supportedB v = true → dateFreeB v = true →
    nativeStringify v = compactWrite v := by
  induction v using JSValue.inductionOn with
  | hnull => intro _ _; rfl
  | hundef => intro h _; simp [supportedB] at h
  | hfn => intro h _; simp [supportedB] at h
  | hbool b => intro _ _; rfl
  | hnum n => intro _ _; rfl
  | hstr s => intro _ _; simp [nativeStringify, compactWrite, nativeQuote_eq]
  | hdate d => intro _ h; simp [dateFreeB] at h
  | harr xs hIH =>
    intro hsup hdf
    simp only [supportedB] at hsup
    simp only [dateFreeB] at hdf
    have heq : ∀ x ∈ xs, nativeStringify x = compactWrite x := fun x hx =>
      hIH x hx (supported_goList_mem xs hsup x hx) (dateFree_goList_mem xs hdf x hx)
    have hsome : ∀ x ∈ xs, ∃ j, compactWrite x = some j := fun x hx =>
      compactWrite_some x (supported_goList_mem xs hsup x hx)
    simp only [nativeStringify, compactWrite, goElems_eq xs heq, goArr_zero xs hsome]
  | hobj own inh hIH hIH2 =>
    intro hsup hdf
    simp only [supportedB, Bool.and_eq_true] at hsup
    simp only [dateFreeB, Bool.and_eq_true] at hdf
    have heq : ∀ q ∈ own, nativeStringify q.2 = compactWrite q.2 := fun q hq =>
      hIH q hq (supported_goPairs_mem own hsup.1 q hq) (dateFree_goPairs_mem own hdf.1 q hq)
    have hsome : ∀ q ∈ own, ∃ j, compactWrite q.2 = some j := fun q hq =>
      compactWrite_some q.2 (supported_goPairs_mem own hsup.1 q hq)
    simp only [nativeStringify, compactWrite, goMembers_eq own heq hsome, goObj_false_eq]

/-- Claim C1 (amended): for every date-free value of the supported
categories, the native fast path (`nativeJSON` true, pretty off) and the
custom recursive serializers (`nativeJSON` false) produce identical output;
for values containing a `Date` the two paths differ (see the
counterexample): the native serializer renders dates as ISO-UTC strings with
milliseconds and a Z suffix while `serialize.date` renders unpadded-year
local time without milliseconds. -/
theorem C1_fastpath_equiv_amended (v : JSValue) (s1 s2 : JSONFormat)
    (hsup : supportedB v = true) (hdf : dateFreeB v = true)
    (h1 : s1.nativeJSON = true) (h2 : s2.nativeJSON = false) :
    (write v false s1).1 = (write v false s2).1 := by
  have hser : hasSerializer (typeofStr v) = true := by
    cases v <;> first | rfl | simp [supportedB] at hsup
  have hfast : (write v false s1).1 = nativeStringify v := by
    cases v <;> simp [write, typeofStr, hasSerializer, h1, nativeStringify]
  rw [hfast, write_custom_compact v s2 h2, native_eq_compact v hsup hdf]

/-- Claim C1 counterexample: on a Date the two paths disagree, even with a
zero time-zone offset: the fast path yields the ISO-UTC string with
milliseconds and Z, the custom path the local 19-character timestamp. -/
theorem C1_counterexample :
    (write (vdate date2024) false ({ nativeJSON := true } : JSONFormat)).1 ≠
      (write (vdate date2024) false ({ nativeJSON := false } : JSONFormat)).1 := by
  decide

theorem C1_fastpath_equiv_amended_witness :
    supportedB (vobj [("a", varr [vnum (.fin 1), vstr ("x\ny")])] []) = true ∧
    dateFreeB (vobj [("a", varr [vnum (.fin 1), vstr ("x\ny")])] []) = true ∧
    (write (vobj [("a", varr [vnum (.fin 1), vstr ("x\ny")])] []) false
        ({} : JSONFormat)).1 =
      (write (vobj [("a", varr [vnum (.fin 1), vstr ("x\ny")])] []) false
        ({ nativeJSON := false } : JSONFormat)).1 :=
  ⟨by decide, by decide,
    C1_fastpath_equiv_amended (vobj [("a", varr [vnum (.fin 1), vstr ("x\ny")])] [])
      ({} : JSONFormat) ({ nativeJSON := false } : JSONFormat) (by decide) (by decide) rfl rfl⟩

/-- Boundary after a numeral: the next character (if any) cannot extend the
numeral (no digit, no fraction dot, no exponent letter). -/
def numBoundary : List Char → Bool
  | [] => true
  | c :: _ => !(isDigitChar c || c = '.' || c = 'e' || c = 'E')

theorem digit_ne (c d : Char) (h : isDigitChar c = true) (hd : isDigitChar d = false) :
    c ≠ d := by
  intro he
  subst he
  rw [h] at hd
  cases hd

theorem digit_not_ws (c : Char) (h : isDigitChar c = true) : isWs c = false := by
  have h1 := digit_ne c ' ' h (by decide)
  have h2 := digit_ne c '\t' h (by decide)
  have h3 := digit_ne c '\n' h (by decide)
  have h4 := digit_ne c '\r' h (by decide)
  simp [isWs, h1, h2, h3, h4]

theorem natDecDigits_all_digits : ∀ (fuel n : Nat), n < fuel →
    ∀ c ∈ natDecDigits fuel n, isDigitChar c = true := by
  intro fuel
  induction fuel with
  | zero => intro n h; omega
  | succ f ih =>
    intro n hn c hc
    simp only [natDecDigits] at hc
    by_cases h10 : n < 10
    · rw [if_pos h10] at hc
      have hce : c = Nat.digitChar n := List.mem_singleton.mp hc
      subst hce
      interval_cases n <;> decide
    · rw [if_neg h10] at hc
      rcases List.mem_append.mp hc with hc1 | hc2
      · exact ih (n / 10) (by omega) c hc1
      · have hce : c = Nat.digitChar (n % 10) := List.mem_singleton.mp hc2
        subst hce
        have h9 : n % 10 < 10 := Nat.mod_lt n (by omega)
        generalize hg : n % 10 = m at h9 ⊢
        interval_cases m <;> decide

theorem natDecDigits_ne_nil (fuel n : Nat) (h : n < fuel) : natDecDigits fuel n ≠ [] := by
  cases fuel with
  | zero => omega
  | succ f =>
    simp only [natDecDigits]
    by_cases h10 : n < 10
    · simp [h10]
    · simp [h10]

theorem digitVal_digitChar : ∀ n < 10, digitVal (Nat.digitChar n) = n := by decide

theorem parseDigits_all (l : List Char) (h : ∀ c ∈ l, isDigitChar c = true) :
    ∀ (acc : Nat) (rest : List Char), numBoundary rest = true →
      parseDigits (l ++ rest) acc =
        (l.foldl (fun a c => a * 10 + digitVal c) acc, rest) := by
  induction l with
  | nil =>
    intro acc rest hr
    cases rest with
    | nil => rfl
    | cons c t =>
      simp only [numBoundary, Bool.not_eq_true', Bool.or_eq_false_iff] at hr
      simp [parseDigits, hr.1.1.1]
  | cons c t ih =>
    intro acc rest hr
    simp only [List.cons_append, parseDigits, h c (List.mem_cons_self c t), if_pos,
      List.foldl_cons]
    exact ih (fun d hd => h d (List.mem_cons_of_mem c hd)) (acc * 10 + digitVal c) rest hr

theorem natDecDigits_foldl : ∀ (fuel n acc : Nat), n < fuel →
    (natDecDigits fuel n).foldl (fun a c => a * 10 + digitVal c) acc =
      acc * 10 ^ (natDecDigits fuel n).length + n := by
  intro fuel
  induction fuel with
  | zero => intro n acc h; omega
  | succ f ih =>
    intro n acc hn
    simp only [natDecDigits]
    by_cases h10 : n < 10
    · simp [h10, digitVal_digitChar n h10]
    · rw [if_neg h10]
      rw [List.foldl_append]
      rw [ih (n / 10) acc (by omega)]
      have h9 : n % 10 < 10 := Nat.mod_lt n (by omega)
      simp only [List.foldl_cons, List.foldl_nil, List.length_append, List.length_singleton,
        digitVal_digitChar (n % 10) h9]
      rw [pow_succ]
      have hdm : 10 * (n / 10) + n % 10 = n := Nat.div_add_mod n 10
      ring_nf
      omega

theorem parseNat_render (n : Nat) (rest : List Char) (hr : numBoundary rest = true) :
    parseDigits ((natToDecimal n).data ++ rest) 0 = (n, rest) := by
  have hall := natDecDigits_all_digits (n + 1) n (Nat.lt_succ_self n)
  have := parseDigits_all (natDecDigits (n + 1) n) hall 0 rest hr
  rw [natDecDigits_foldl (n + 1) n 0 (Nat.lt_succ_self n)] at this
  simpa [natToDecimal] using this

theorem parseIntDigits_render (neg : Bool) (n : Nat) (rest : List Char)
    (hr : numBoundary rest = true) :
    parseIntDigits neg ((natToDecimal n).data ++ rest) =
      .ok (JSNum.fin (if neg then -(n : Int) else (n : Int)), rest) := by
  obtain ⟨d, ds, hds⟩ := List.exists_cons_of_ne_nil
    (natDecDigits_ne_nil (n + 1) n (Nat.lt_succ_self _))
  have hd : isDigitChar d = true := by
    refine natDecDigits_all_digits (n + 1) n (Nat.lt_succ_self _) d ?_
    rw [hds]
    exact List.mem_cons_self d ds
  have hp := parseNat_render n rest hr
  rw [natToDecimal] at hp ⊢
  rw [show (String.mk (natDecDigits (n + 1) n)).data = natDecDigits (n + 1) n from rfl] at hp ⊢
  rw [hds] at hp ⊢
  simp only [List.cons_append] at hp ⊢
  simp only [parseIntDigits, hd, if_pos, hp]
  cases rest with
  | nil => rfl
  | cons c t =>
    simp only [numBoundary, Bool.not_eq_true', Bool.or_eq_false_iff] at hr
    obtain ⟨⟨⟨hr1, hr2⟩, hr3⟩, hr4⟩ := hr
    simp only [decide_eq_false_iff_not] at hr2 hr3 hr4
    simp [hr2, hr3, hr4]

theorem parseIntNumber_render (i : Int) (rest : List Char) (hr : numBoundary rest = true) :
    parseIntNumber ((intToDecimal i).data ++ rest) = .ok (JSNum.fin i, rest) := by
  by_cases hneg : i < 0
  · rw [show (intToDecimal i).data ++ rest = '-' :: ((natToDecimal i.natAbs).data ++ rest) from by
      rw [intToDecimal, if_pos hneg]
      rfl]
    simp only [parseIntNumber, if_pos]
    rw [parseIntDigits_render true i.natAbs rest hr]
    have he : -((i.natAbs : Nat) : Int) = i := by omega
    show Except.ok (JSNum.fin (-((i.natAbs : Nat) : Int)), rest) = _
    rw [he]
  · obtain ⟨d, ds, hds⟩ := List.exists_cons_of_ne_nil
      (natDecDigits_ne_nil (i.toNat + 1) i.toNat (Nat.lt_succ_self _))
    have hd : isDigitChar d = true := by
      refine natDecDigits_all_digits (i.toNat + 1) i.toNat (Nat.lt_succ_self _) d ?_
      rw [hds]
      exact List.mem_cons_self d ds
    have hdm : d ≠ '-' := digit_ne d '-' hd (by decide)
    have hpd := parseIntDigits_render false i.toNat rest hr
    have hdata : (intToDecimal i).data = (natToDecimal i.toNat).data := by
      simp [intToDecimal, hneg]
    rw [hdata]
    rw [natToDecimal] at hpd ⊢
    rw [show (String.mk (natDecDigits (i.toNat + 1) i.toNat)).data
        = natDecDigits (i.toNat + 1) i.toNat from rfl] at hpd ⊢
    rw [hds] at hpd ⊢
    simp only [List.cons_append] at hpd ⊢
    simp only [parseIntNumber, hdm, if_neg]
    rw [hpd]
    have he : ((i.toNat : Nat) : Int) = i := by omega
    show Except.ok (JSNum.fin ((i.toNat : Nat) : Int), rest) = _
    rw [he]

theorem hexVal_digitChar : ∀ k < 16, hexVal (Nat.digitChar k) = some k := by decide

theorem nativeQuote_data (s : String) : (nativeQuote s).data
    = '"' :: ((s.data.map (fun c => (nativeEscapeChar c).data)).flatten ++ ['"']) := by
  simp [nativeQuote, String.data_append, joinPieces_data, List.map_map, Function.comp]
  rfl

theorem parseStringBody_escape (l : List Char) : ∀ (acc rest : List Char),
    parseStringBody ((l.map (fun c => (nativeEscapeChar c).data)).flatten ++ ('"' :: rest)) acc
      = .ok (String.mk (acc.reverse ++ l), rest) := by
  induction l with
  | nil =>
    intro acc rest
    rw [parseStringBody.eq_def]
    simp
  | cons c t ih =>
    intro acc rest
    have hstep : (((c :: t).map (fun c => (nativeEscapeChar c).data)).flatten ++ ('"' :: rest))
        = (nativeEscapeChar c).data ++ ((t.map (fun c => (nativeEscapeChar c).data)).flatten
            ++ ('"' :: rest)) := by
      simp [List.flatten_cons, List.append_assoc]
    rw [hstep]
    have hacc : ((c :: acc).reverse ++ t) = acc.reverse ++ (c :: t) := by
      simp [List.reverse_cons, List.append_assoc]
    by_cases h22 : c = '"'
    · subst h22
      rw [show (nativeEscapeChar '"').data = ['\\', '"'] from rfl]
      simp only [List.cons_append, List.nil_append]
      rw [parseStringBody.eq_def]
      simp [ih, hacc]
    by_cases h5c : c = '\\'
    · subst h5c
      rw [show (nativeEscapeChar '\\').data = ['\\', '\\'] from rfl]
      simp only [List.cons_append, List.nil_append]
      rw [parseStringBody.eq_def]
      simp [ih, hacc]
    by_cases h08 : c = '\x08'
    · subst h08
      rw [show (nativeEscapeChar '\x08').data = ['\\', 'b'] from rfl]
      simp only [List.cons_append, List.nil_append]
      rw [parseStringBody.eq_def]
      simp [ih, hacc]
    by_cases h0c : c = '\x0c'
    · subst h0c
      rw [show (nativeEscapeChar '\x0c').data = ['\\', 'f'] from rfl]
      simp only [List.cons_append, List.nil_append]
      rw [parseStringBody.eq_def]
      simp [ih, hacc]
    by_cases h0a : c = '\x0a'
    · subst h0a
      rw [show (nativeEscapeChar '\x0a').data = ['\\', 'n'] from rfl]
      simp only [List.cons_append, List.nil_append]
      rw [parseStringBody.eq_def]
      simp [ih, hacc]
    by_cases h0d : c = '\x0d'
    · subst h0d
      rw [show (nativeEscapeChar '\x0d').data = ['\\', 'r'] from rfl]
      simp only [List.cons_append, List.nil_append]
      rw [parseStringBody.eq_def]
      simp [ih, hacc]
    by_cases h09 : c = '\x09'
    · subst h09
      rw [show (nativeEscapeChar '\x09').data = ['\\', 't'] from rfl]
      simp only [List.cons_append, List.nil_append]
      rw [parseStringBody.eq_def]
      simp [ih, hacc]
    by_cases hctl : c.toNat < 0x20
    · have e0 : c.toNat / 4096 % 16 = 0 := by omega
      have e1 : c.toNat / 256 % 16 = 0 := by omega
      have e2 : c.toNat / 16 % 16 = c.toNat / 16 := by omega
      have hdata : (nativeEscapeChar c).data =
          ['\\', 'u', '0', '0', Nat.digitChar (c.toNat / 16), Nat.digitChar (c.toNat % 16)] := by
        simp only [nativeEscapeChar, h22, h5c, h08, h0c, h0a, h0d, h09, hctl,
          if_true, if_false, e0, e1, e2]
        rfl
      rw [hdata]
      simp only [List.cons_append, List.nil_append]
      rw [parseStringBody.eq_def]
      have hx3 := hexVal_digitChar (c.toNat / 16) (by omega)
      have hx4 := hexVal_digitChar (c.toNat % 16) (by omega)
      have harith : c.toNat / 16 * 16 + c.toNat % 16 = c.toNat := by omega
      simp [show hexVal ('0') = some 0 from rfl, hx3, hx4, harith, Char.ofNat_toNat, ih, hacc]
    · have hdata : (nativeEscapeChar c).data = [c] := by
        simp only [nativeEscapeChar, h22, h5c, h08, h0c, h0a, h0d, h09, hctl, if_false]
        try rfl
      rw [hdata]
      simp only [List.cons_append, List.nil_append]
      rw [parseStringBody.eq_def]
      simp [h22, h5c, hctl, ih, hacc]

/-- Parser fuel sufficient for a value: one unit per `parseValue` entry plus
one per list-loop step. -/
def fuelFor : JSValue → Nat
  | varr xs => 1 + goL xs
  | vobj own _ => 1 + goP own
  | _ => 1
where
  goL : List JSValue → Nat
    | [] => 0
    | x :: rest => 1 + fuelFor x + goL rest
  goP : List (String × JSValue) → Nat
    | [] => 0
    | (_, v) :: rest => 1 + fuelFor v + goP rest

theorem skipWs_noop (c : Char) (t : List Char) (h : isWs c = false) :
    skipWs (c :: t) = c :: t := by
  simp [skipWs, h]

theorem nativeStringify_some (v : JSValue) (h : supportedB v = true) :
    ∃ out, nativeStringify v = some out := by
  cases v <;> simp [nativeStringify] <;> simp [supportedB] at h

theorem natToDecimal_head (n : Nat) :
    ∃ d ds, (natToDecimal n).data = d :: ds ∧ isDigitChar d = true := by
  obtain ⟨d, ds, hds⟩ := List.exists_cons_of_ne_nil
    (natDecDigits_ne_nil (n + 1) n (Nat.lt_succ_self _))
  refine ⟨d, ds, ?_, ?_⟩
  · rw [natToDecimal]
    exact hds
  · refine natDecDigits_all_digits (n + 1) n (Nat.lt_succ_self _) d ?_
    rw [hds]
    exact List.mem_cons_self d ds

set_option maxHeartbeats 1000000 in
theorem render_head (v : JSValue) (hsup : supportedB v = true) (out : String)
    (ho : nativeStringify v = some out) :
    ∃ c cs, out.data = c :: cs ∧ isWs c = false ∧ c ≠ ']' ∧ c ≠ '\x7d' := by
  cases v with
  | vnull =>
    refine ⟨'n', ['u', 'l', 'l'], ?_, by decide, by decide, by decide⟩
    have : out = "null" := by simpa [nativeStringify] using ho.symm
    rw [this]
  | vundef => simp [supportedB] at hsup
  | vfun => simp [supportedB] at hsup
  | vbool b =>
    cases b with
    | true =>
      refine ⟨'t', ['r', 'u', 'e'], ?_, by decide, by decide, by decide⟩
      have : out = "true" := by simpa [nativeStringify, serializeBoolean] using ho.symm
      rw [this]
    | false =>
      refine ⟨'f', ['a', 'l', 's', 'e'], ?_, by decide, by decide, by decide⟩
      have : out = "false" := by simpa [nativeStringify, serializeBoolean] using ho.symm
      rw [this]
  | vnum n =>
    cases n with
    | fin i =>
      have hout : out = intToDecimal i := by
        simpa [nativeStringify, isFiniteNum, jsNumToString] using ho.symm
      subst hout
      by_cases hneg : i < 0
      · obtain ⟨d, ds, hds, hd⟩ := natToDecimal_head i.natAbs
        refine ⟨'-', (natToDecimal i.natAbs).data, ?_, by decide, by decide, by decide⟩
        rw [intToDecimal, if_pos hneg]
        rw [String.data_append]
        rfl
      · obtain ⟨d, ds, hds, hd⟩ := natToDecimal_head i.toNat
        refine ⟨d, ds, ?_, digit_not_ws d hd, digit_ne d ']' hd (by decide),
          digit_ne d '\x7d' hd (by decide)⟩
        rw [intToDecimal, if_neg hneg]
        exact hds
    | nan =>
      refine ⟨'n', ['u', 'l', 'l'], ?_, by decide, by decide, by decide⟩
      have : out = "null" := by simpa [nativeStringify, isFiniteNum] using ho.symm
      rw [this]
    | inf =>
      refine ⟨'n', ['u', 'l', 'l'], ?_, by decide, by decide, by decide⟩
      have : out = "null" := by simpa [nativeStringify, isFiniteNum] using ho.symm
      rw [this]
    | ninf =>
      refine ⟨'n', ['u', 'l', 'l'], ?_, by decide, by decide, by decide⟩
      have : out = "null" := by simpa [nativeStringify, isFiniteNum] using ho.symm
      rw [this]
  | vstr s =>
    have hout : out = nativeQuote s := by simpa [nativeStringify] using ho.symm
    subst hout
    refine ⟨'"', (s.data.map (fun c => (nativeEscapeChar c).data)).flatten ++ ['"'],
      nativeQuote_data s, by decide, by decide, by decide⟩
  | vdate d =>
    have hout : out = nativeQuote (toISOString d) := by simpa [nativeStringify] using ho.symm
    rw [hout]
    refine ⟨'"', ((toISOString d).data.map (fun c => (nativeEscapeChar c).data)).flatten ++ ['"'],
      nativeQuote_data (toISOString d), by decide, by decide, by decide⟩
  | varr xs =>
    have hout : out = "[" ++ commaJoin (nativeStringify.goElems xs) ++ "]" := by
      simpa [nativeStringify] using ho.symm
    subst hout
    refine ⟨'[', (commaJoin (nativeStringify.goElems xs)).data ++ [']'], ?_,
      by decide, by decide, by decide⟩
    simp [String.data_append]
  | vobj own inh =>
    have hout : out = "\x7b" ++ commaJoin (nativeStringify.goMembers own) ++ "\x7d" := by
      simpa [nativeStringify] using ho.symm
    subst hout
    refine ⟨'\x7b', (commaJoin (nativeStringify.goMembers own)).data ++ ['\x7d'], ?_,
      by decide, by decide, by decide⟩
    simp [String.data_append]

theorem parseElems_unfold (f : Nat) (cs : List Char) :
    parseElems (f + 1) cs =
      match parseValue f cs with
      | .error e => .error e
      | .ok (v, rest) =>
        match skipWs rest with
        | ',' :: rest2 =>
          match parseElems f rest2 with
          | .ok (varr xs, rest3) => .ok (varr (v :: xs), rest3)
          | .ok (_, _) => .error ("impossible")
          | .error e => .error e
        | ']' :: rest2 => .ok (varr [v], rest2)
        | _ => .error ("expected comma or closing bracket")
      := rfl

theorem parseMembers_unfold (f : Nat) (cs : List Char) :
    parseMembers (f + 1) cs =
      match skipWs cs with
      | '"' :: rest =>
        match parseStringBody rest [] with
        | .error e => .error e
        | .ok (k, rest2) =>
          match skipWs rest2 with
          | ':' :: rest3 =>
            match parseValue f rest3 with
            | .error e => .error e
            | .ok (v, rest4) =>
              match skipWs rest4 with
              | ',' :: rest5 =>
                match parseMembers f rest5 with
                | .ok (vobj mem [], rest6) => .ok (vobj ((k, v) :: mem) [], rest6)
                | .ok (_, _) => .error ("impossible")
                | .error e => .error e
              | '\x7d' :: rest5 => .ok (vobj [(k, v)] [], rest5)
              | _ => .error ("expected comma or closing brace")
          | _ => .error ("expected colon")
      | _ => .error ("expected string key")
      := rfl

theorem parse_elems (xs : List JSValue)
    (hIH : ∀ x ∈ xs, ∀ (out : String), nativeStringify x = some out → ∀ (fuel : Nat),
      fuelFor x ≤ fuel → ∀ (rest : List Char), numBoundary rest = true →
        parseValue fuel (out.data ++ rest) = .ok (cleanValue x, rest))
    (hsup : ∀ x ∈ xs, supportedB x = true) :
    xs ≠ [] → ∀ (fuel : Nat), fuelFor.goL xs ≤ fuel → ∀ (rest : List Char),
      parseElems fuel ((commaJoin (nativeStringify.goElems xs)).data ++ (']' :: rest))
        = .ok (varr (cleanValue.goList xs), rest) := by
  induction xs with
  | nil => intro h; exact absurd rfl h
  | cons x t ih =>
    intro _ fuel hf rest
    obtain ⟨ox, hox⟩ := nativeStringify_some x (hsup x (List.mem_cons_self x t))
    cases fuel with
    | zero =>
      simp only [fuelFor.goL] at hf
      omega
    | succ f =>
      have hfx : fuelFor x ≤ f := by
        simp only [fuelFor.goL] at hf
        omega
      have hft : fuelFor.goL t ≤ f := by
        simp only [fuelFor.goL] at hf
        omega
      have hIHx := hIH x (List.mem_cons_self x t) ox hox f hfx
      cases t with
      | nil =>
        rw [show nativeStringify.goElems [x] = [ox] by simp [nativeStringify.goElems, hox]]
        rw [show commaJoin [ox] = ox from rfl]
        rw [parseElems_unfold]
        rw [hIHx (']' :: rest) rfl]
        rfl
      | cons y t2 =>
        have hsplit : (commaJoin (nativeStringify.goElems (x :: y :: t2))).data ++ (']' :: rest)
            = ox.data ++ (',' ::
              ((commaJoin (nativeStringify.goElems (y :: t2))).data ++ (']' :: rest))) := by
          rw [show nativeStringify.goElems (x :: y :: t2)
              = ox :: nativeStringify.goElems (y :: t2) by simp [nativeStringify.goElems, hox]]
          rw [show nativeStringify.goElems (y :: t2)
              = ((nativeStringify y).getD ("null")) :: nativeStringify.goElems t2 from rfl]
          rw [show commaJoin (ox :: ((nativeStringify y).getD ("null"))
                :: nativeStringify.goElems t2)
              = ox ++ "," ++ commaJoin (((nativeStringify y).getD ("null"))
                :: nativeStringify.goElems t2) from rfl]
          simp [String.data_append, List.append_assoc]
        rw [hsplit]
        rw [parseElems_unfold]
        rw [hIHx (',' :: ((commaJoin (nativeStringify.goElems (y :: t2))).data ++ (']' :: rest)))
          rfl]
        have hrec := ih (fun z hz => hIH z (List.mem_cons_of_mem x hz))
          (fun z hz => hsup z (List.mem_cons_of_mem x hz))
          (List.cons_ne_nil y t2) f hft rest
        have hsw : skipWs (',' :: ((commaJoin (nativeStringify.goElems (y :: t2))).data
              ++ (']' :: rest)))
            = ',' :: ((commaJoin (nativeStringify.goElems (y :: t2))).data ++ (']' :: rest)) :=
          skipWs_noop _ _ rfl
        simp only [hsw]
        simp [hrec]
        rfl

theorem parse_members (own : List (String × JSValue))
    (hIH : ∀ q ∈ own, ∀ (out : String), nativeStringify q.2 = some out → ∀ (fuel : Nat),
      fuelFor q.2 ≤ fuel → ∀ (rest : List Char), numBoundary rest = true →
        parseValue fuel (out.data ++ rest) = .ok (cleanValue q.2, rest))
    (hsup : ∀ q ∈ own, supportedB q.2 = true) :
    own ≠ [] → ∀ (fuel : Nat), fuelFor.goP own ≤ fuel → ∀ (rest : List Char),
      parseMembers fuel ((commaJoin (nativeStringify.goMembers own)).data ++ ('\x7d' :: rest))
        = .ok (vobj (cleanValue.goPairs own) [], rest) := by
  induction own with
  | nil => intro h; exact absurd rfl h
  | cons q t ih =>
    intro _ fuel hf rest
    obtain ⟨k, v⟩ := q
    obtain ⟨ov, hov⟩ := nativeStringify_some v (hsup (k, v) (List.mem_cons_self (k, v) t))
    cases fuel with
    | zero =>
      simp only [fuelFor.goP] at hf
      omega
    | succ f =>
      have hfv : fuelFor v ≤ f := by
        simp only [fuelFor.goP] at hf
        omega
      have hft : fuelFor.goP t ≤ f := by
        simp only [fuelFor.goP] at hf
        omega
      have hIHv := hIH (k, v) (List.mem_cons_self (k, v) t) ov hov f hfv
      have hmem : nativeStringify.goMembers ((k, v) :: t)
          = (nativeQuote k ++ ":" ++ ov) :: nativeStringify.goMembers t := by
        simp [nativeStringify.goMembers, hov]
      cases t with
      | nil =>
        rw [hmem]
        rw [show nativeStringify.goMembers ([] : List (String × JSValue)) = [] from rfl]
        rw [show commaJoin [nativeQuote k ++ ":" ++ ov] = nativeQuote k ++ ":" ++ ov from rfl]
        have hsplit : (nativeQuote k ++ ":" ++ ov).data ++ ('\x7d' :: rest)
            = '"' :: ((k.data.map (fun c => (nativeEscapeChar c).data)).flatten
              ++ ('"' :: (':' :: (ov.data ++ ('\x7d' :: rest))))) := by
          simp [String.data_append, nativeQuote_data, List.append_assoc]
        rw [hsplit]
        rw [parseMembers_unfold]
        have h0 := parseStringBody_escape k.data []
          (':' :: (ov.data ++ ('\x7d' :: rest)))
        simp only [List.reverse_nil, List.nil_append] at h0
        rw [show String.mk k.data = k from rfl] at h0
        have hswq : skipWs ('"' :: ((k.data.map (fun c => (nativeEscapeChar c).data)).flatten
              ++ ('"' :: (':' :: (ov.data ++ ('\x7d' :: rest))))))
            = '"' :: ((k.data.map (fun c => (nativeEscapeChar c).data)).flatten
              ++ ('"' :: (':' :: (ov.data ++ ('\x7d' :: rest))))) := skipWs_noop _ _ rfl
        simp only [hswq]
        have hsw2 : skipWs (':' :: (ov.data ++ ('\x7d' :: rest)))
            = ':' :: (ov.data ++ ('\x7d' :: rest)) := skipWs_noop _ _ rfl
        simp only [h0, hsw2]
        rw [hIHv (('\x7d' :: rest)) rfl]
        rfl
      | cons q2 t2 =>
        obtain ⟨k2, v2⟩ := q2
        obtain ⟨ov2, hov2⟩ :=
          nativeStringify_some v2 (hsup (k2, v2) (by simp))
        have hmem2 : nativeStringify.goMembers ((k2, v2) :: t2)
            = (nativeQuote k2 ++ ":" ++ ov2) :: nativeStringify.goMembers t2 := by
          simp [nativeStringify.goMembers, hov2]
        rw [hmem, hmem2]
        rw [show commaJoin ((nativeQuote k ++ ":" ++ ov) :: (nativeQuote k2 ++ ":" ++ ov2)
              :: nativeStringify.goMembers t2)
            = (nativeQuote k ++ ":" ++ ov) ++ "," ++ commaJoin ((nativeQuote k2 ++ ":" ++ ov2)
              :: nativeStringify.goMembers t2) from rfl]
        have hsplit : ((nativeQuote k ++ ":" ++ ov) ++ "," ++ commaJoin ((nativeQuote k2 ++ ":"
              ++ ov2) :: nativeStringify.goMembers t2)).data ++ ('\x7d' :: rest)
            = '"' :: ((k.data.map (fun c => (nativeEscapeChar c).data)).flatten
              ++ ('"' :: (':' :: (ov.data ++ (',' ::
                ((commaJoin ((nativeQuote k2 ++ ":" ++ ov2)
                  :: nativeStringify.goMembers t2)).data ++ ('\x7d' :: rest))))))) := by
          simp [String.data_append, nativeQuote_data, List.append_assoc]
        rw [hsplit]
        rw [parseMembers_unfold]
        have h0 := parseStringBody_escape k.data []
          (':' :: (ov.data ++ (',' :: ((commaJoin ((nativeQuote k2 ++ ":" ++ ov2)
            :: nativeStringify.goMembers t2)).data ++ ('\x7d' :: rest)))))
        simp only [List.reverse_nil, List.nil_append] at h0
        rw [show String.mk k.data = k from rfl] at h0
        have hswq : skipWs ('"' :: ((k.data.map (fun c => (nativeEscapeChar c).data)).flatten
              ++ ('"' :: (':' :: (ov.data ++ (',' :: ((commaJoin ((nativeQuote k2 ++ ":" ++ ov2)
                :: nativeStringify.goMembers t2)).data ++ ('\x7d' :: rest))))))))
            = '"' :: ((k.data.map (fun c => (nativeEscapeChar c).data)).flatten
              ++ ('"' :: (':' :: (ov.data ++ (',' :: ((commaJoin ((nativeQuote k2 ++ ":" ++ ov2)
                :: nativeStringify.goMembers t2)).data ++ ('\x7d' :: rest))))))) :=
          skipWs_noop _ _ rfl
        simp only [hswq]
        have hsw2 : skipWs (':' :: (ov.data ++ (',' :: ((commaJoin ((nativeQuote k2 ++ ":" ++ ov2)
              :: nativeStringify.goMembers t2)).data ++ ('\x7d' :: rest)))))
            = ':' :: (ov.data ++ (',' :: ((commaJoin ((nativeQuote k2 ++ ":" ++ ov2)
              :: nativeStringify.goMembers t2)).data ++ ('\x7d' :: rest)))) :=
          skipWs_noop _ _ rfl
        simp only [h0, hsw2]
        rw [hIHv (',' :: ((commaJoin ((nativeQuote k2 ++ ":" ++ ov2)
          :: nativeStringify.goMembers t2)).data ++ ('\x7d' :: rest))) rfl]
        have hrec := ih (fun z hz => hIH z (List.mem_cons_of_mem (k, v) hz))
          (fun z hz => hsup z (List.mem_cons_of_mem (k, v) hz))
          (List.cons_ne_nil (k2, v2) t2) f hft rest
        rw [hmem2] at hrec
        have hsw : skipWs (',' :: ((commaJoin ((nativeQuote k2 ++ ":" ++ ov2)
              :: nativeStringify.goMembers t2)).data ++ ('\x7d' :: rest)))
            = ',' :: ((commaJoin ((nativeQuote k2 ++ ":" ++ ov2)
              :: nativeStringify.goMembers t2)).data ++ ('\x7d' :: rest)) :=
          skipWs_noop _ _ rfl
        simp only [hsw]
        simp [hrec]
        try rfl

theorem parse_quote (s : String) (f : Nat) (rest : List Char) :
    parseValue (f + 1) ((nativeQuote s).data ++ rest) = .ok (vstr s, rest) := by
  rw [show (nativeQuote s).data ++ rest
      = '"' :: ((s.data.map (fun c => (nativeEscapeChar c).data)).flatten
        ++ ('"' :: rest)) by
    rw [nativeQuote_data]
    simp [List.append_assoc]]
  show (match parseStringBody ((s.data.map (fun c => (nativeEscapeChar c).data)).flatten
      ++ ('"' :: rest)) [] with
    | .ok (s2, rest2) => (Except.ok (vstr s2, rest2) : Except String (JSValue × List Char))
    | .error e => .error e) = .ok (vstr s, rest)
  rw [parseStringBody_escape s.data [] rest]
  rfl

set_option maxHeartbeats 1600000 in
theorem parse_render (v : JSValue) : supportedB v = true →
    ∀ (out : String), nativeStringify v = some out →
    ∀ (fuel : Nat), fuelFor v ≤ fuel →
    ∀ (rest : List Char), numBoundary rest = true →
    parseValue fuel (out.data ++ rest) = .ok (cleanValue v, rest) := by
  induction v using JSValue.inductionOn with
  | hnull =>
    intro _ out ho fuel hf rest _
    have hout : out = "null" := by simpa [nativeStringify] using ho.symm
    subst hout
    cases fuel with
    | zero => simp [fuelFor] at hf
    | succ f => rfl
  | hundef => intro hsup; simp [supportedB] at hsup
  | hfn => intro hsup; simp [supportedB] at hsup
  | hbool b =>
    intro _ out ho fuel hf rest _
    cases fuel with
    | zero => simp [fuelFor] at hf
    | succ f =>
      cases b with
      | true =>
        have hout : out = "true" := by simpa [nativeStringify, serializeBoolean] using ho.symm
        subst hout
        rfl
      | false =>
        have hout : out = "false" := by simpa [nativeStringify, serializeBoolean] using ho.symm
        subst hout
        rfl
  | hnum n =>
    intro _ out ho fuel hf rest hr
    cases fuel with
    | zero => simp [fuelFor] at hf
    | succ f =>
      cases n with
      | fin i =>
        have hout : out = intToDecimal i := by
          simpa [nativeStringify, isFiniteNum, jsNumToString] using ho.symm
        subst hout
        have hpi := parseIntNumber_render i rest hr
        by_cases hneg : i < 0
        · have hdata : (intToDecimal i).data = '-' :: (natToDecimal i.natAbs).data := by
            rw [intToDecimal, if_pos hneg]
            rw [String.data_append]
            rfl
          rw [hdata]
          rw [hdata] at hpi
          simp only [List.cons_append] at hpi ⊢
          show (match parseIntNumber ('-' :: ((natToDecimal i.natAbs).data ++ rest)) with
            | .ok (n, rest2) => (Except.ok (vnum n, rest2) : Except String (JSValue × List Char))
            | .error e => .error e) = .ok (cleanValue (vnum (JSNum.fin i)), rest)
          rw [hpi]
          rfl
        · obtain ⟨d, ds, hds, hd⟩ := natToDecimal_head i.toNat
          have hdata : (intToDecimal i).data = d :: ds := by
            rw [intToDecimal, if_neg hneg]
            exact hds
          rw [hdata]
          rw [hdata] at hpi
          simp only [List.cons_append] at hpi ⊢
          have hsw := skipWs_noop d (ds ++ rest) (digit_not_ws d hd)
          have hne1 := digit_ne d 'n' hd (by decide)
          have hne2 := digit_ne d 't' hd (by decide)
          have hne3 := digit_ne d 'f' hd (by decide)
          have hne4 := digit_ne d '"' hd (by decide)
          have hne5 := digit_ne d '[' hd (by decide)
          have hne6 := digit_ne d '\x7b' hd (by decide)
          simp only [parseValue, hsw, hne1, hne2, hne3, hne4, hne5, hne6,
            if_false, hd, Bool.or_true, if_true, hpi]
          rfl
      | nan =>
        have hout : out = "null" := by simpa [nativeStringify, isFiniteNum] using ho.symm
        subst hout
        rfl
      | inf =>
        have hout : out = "null" := by simpa [nativeStringify, isFiniteNum] using ho.symm
        subst hout
        rfl
      | ninf =>
        have hout : out = "null" := by simpa [nativeStringify, isFiniteNum] using ho.symm
        subst hout
        rfl
  | hstr s =>
    intro _ out ho fuel hf rest _
    cases fuel with
    | zero => simp [fuelFor] at hf
    | succ f =>
      have hout : out = nativeQuote s := by simpa [nativeStringify] using ho.symm
      subst hout
      exact parse_quote s f rest
  | hdate d =>
    intro _ out ho fuel hf rest _
    cases fuel with
    | zero => simp [fuelFor] at hf
    | succ f =>
      have hout : out = nativeQuote (toISOString d) := by
        simpa [nativeStringify] using ho.symm
      rw [hout]
      exact parse_quote (toISOString d) f rest
  | harr xs hIH =>
    intro hsup out ho fuel hf rest _
    have hout : out = "[" ++ commaJoin (nativeStringify.goElems xs) ++ "]" := by
      simpa [nativeStringify] using ho.symm
    subst hout
    cases fuel with
    | zero => simp [fuelFor] at hf
    | succ f =>
      have hmem : ∀ x ∈ xs, supportedB x = true := by
        intro x hx
        simp only [supportedB] at hsup
        exact supported_goList_mem xs hsup x hx
      have hgl : fuelFor.goL xs ≤ f := by
        simp only [fuelFor] at hf
        omega
      rw [show ("[" ++ commaJoin (nativeStringify.goElems xs) ++ "]").data ++ rest
          = '[' :: ((commaJoin (nativeStringify.goElems xs)).data ++ (']' :: rest)) by
        simp [String.data_append, List.append_assoc]]
      show (match skipWs ((commaJoin (nativeStringify.goElems xs)).data ++ (']' :: rest)) with
        | ']' :: rest2 => (Except.ok (varr [], rest2) : Except String (JSValue × List Char))
        | cs2 => parseElems f cs2) = .ok (cleanValue (varr xs), rest)
      cases xs with
      | nil => rfl
      | cons x t =>
        obtain ⟨ox, hox⟩ := nativeStringify_some x (hmem x (List.mem_cons_self x t))
        obtain ⟨c0, cs0, hc0, hcw, hcb, _⟩ :=
          render_head x (hmem x (List.mem_cons_self x t)) ox hox
        have hdec : (commaJoin (nativeStringify.goElems (x :: t))).data ++ (']' :: rest)
            = c0 :: (cs0 ++ ((joinPieces ((nativeStringify.goElems t).map
                (fun s => "," ++ s))).data ++ (']' :: rest))) := by
          rw [show nativeStringify.goElems (x :: t)
              = ox :: nativeStringify.goElems t by simp [nativeStringify.goElems, hox]]
          rw [commaJoin_cons]
          simp [String.data_append, hc0, List.append_assoc]
        rw [hdec]
        have hsw := skipWs_noop c0 (cs0 ++ ((joinPieces ((nativeStringify.goElems t).map
          (fun s => "," ++ s))).data ++ (']' :: rest))) hcw
        simp only [hsw]
        have hpe := parse_elems (x :: t)
          (fun z hz => hIH z hz (hmem z hz))
          hmem (List.cons_ne_nil x t) f hgl rest
        rw [hdec] at hpe
        split
        · rename_i heq
          rw [List.cons.injEq] at heq
          exact absurd heq.1 hcb
        · exact hpe
  | hobj own inh hIH hIH2 =>
    intro hsup out ho fuel hf rest _
    have hout : out = "\x7b" ++ commaJoin (nativeStringify.goMembers own) ++ "\x7d" := by
      simpa [nativeStringify] using ho.symm
    subst hout
    cases fuel with
    | zero => simp [fuelFor] at hf
    | succ f =>
      have hsup2 : supportedB.goPairs own = true := by
        simp only [supportedB, Bool.and_eq_true] at hsup
        exact hsup.1
      have hmem : ∀ q ∈ own, supportedB q.2 = true :=
        supported_goPairs_mem own hsup2
      have hgp : fuelFor.goP own ≤ f := by
        simp only [fuelFor] at hf
        omega
      rw [show ("\x7b" ++ commaJoin (nativeStringify.goMembers own) ++ "\x7d").data ++ rest
          = '\x7b' :: ((commaJoin (nativeStringify.goMembers own)).data ++ ('\x7d' :: rest)) by
        simp [String.data_append, List.append_assoc]]
      show (match skipWs ((commaJoin (nativeStringify.goMembers own)).data
            ++ ('\x7d' :: rest)) with
        | '\x7d' :: rest2 => (Except.ok (vobj [] [], rest2) : Except String (JSValue × List Char))
        | cs2 => parseMembers f cs2) = .ok (cleanValue (vobj own inh), rest)
      cases own with
      | nil => rfl
      | cons q t =>
        obtain ⟨k, v⟩ := q
        obtain ⟨ov, hov⟩ := nativeStringify_some v (hmem (k, v) (List.mem_cons_self (k, v) t))
        have hdec : (commaJoin (nativeStringify.goMembers ((k, v) :: t))).data
              ++ ('\x7d' :: rest)
            = '"' :: ((k.data.map (fun c => (nativeEscapeChar c).data)).flatten
              ++ ('"' :: (':' :: (ov.data ++ ((joinPieces ((nativeStringify.goMembers t).map
                (fun s => "," ++ s))).data ++ ('\x7d' :: rest)))))) := by
          rw [show nativeStringify.goMembers ((k, v) :: t)
              = (nativeQuote k ++ ":" ++ ov) :: nativeStringify.goMembers t by
            simp [nativeStringify.goMembers, hov]]
          rw [commaJoin_cons]
          simp [String.data_append, nativeQuote_data, List.append_assoc]
        rw [hdec]
        have hsw := skipWs_noop '"'
          ((k.data.map (fun c => (nativeEscapeChar c).data)).flatten
            ++ ('"' :: (':' :: (ov.data ++ ((joinPieces ((nativeStringify.goMembers t).map
              (fun s => "," ++ s))).data ++ ('\x7d' :: rest)))))) (by decide)
        simp only [hsw]
        have hpm := parse_members ((k, v) :: t)
          (fun z hz => hIH z hz (hmem z hz))
          hmem (List.cons_ne_nil (k, v) t) f hgp rest
        rw [hdec] at hpm
        split
        · rename_i heq
          rw [List.cons.injEq] at heq
          exact absurd heq.1 (by decide)
        · exact hpm

theorem nativeQuote_len (s : String) : 2 ≤ (nativeQuote s).data.length := by
  rw [nativeQuote_data]
  simp

theorem natToDecimal_len (n : Nat) : 1 ≤ (natToDecimal n).data.length := by
  obtain ⟨d, ds, hds, _⟩ := natToDecimal_head n
  rw [hds]
  simp

theorem goL_len (xs : List JSValue)
    (hIH : ∀ x ∈ xs, supportedB x = true → ∀ (out : String), nativeStringify x = some out →
      fuelFor x ≤ 2 * out.data.length)
    (hsup : ∀ x ∈ xs, supportedB x = true) :
    fuelFor.goL xs ≤ 2 * (commaJoin (nativeStringify.goElems xs)).data.length + 2 := by
  induction xs with
  | nil => simp [fuelFor.goL]
  | cons x t ih =>
    obtain ⟨ox, hox⟩ := nativeStringify_some x (hsup x (List.mem_cons_self x t))
    have hx := hIH x (List.mem_cons_self x t) (hsup x (List.mem_cons_self x t)) ox hox
    have hel : nativeStringify.goElems (x :: t) = ox :: nativeStringify.goElems t := by
      simp [nativeStringify.goElems, hox]
    rw [hel]
    cases ht : nativeStringify.goElems t with
    | nil =>
      have ht0 : t = [] := by
        cases t with
        | nil => rfl
        | cons y t2 => simp [nativeStringify.goElems] at ht
      subst ht0
      simp only [fuelFor.goL]
      rw [show commaJoin [ox] = ox from rfl]
      omega
    | cons j js =>
      have hrec := ih (fun z hz => hIH z (List.mem_cons_of_mem x hz))
        (fun z hz => hsup z (List.mem_cons_of_mem x hz))
      rw [ht] at hrec
      rw [show commaJoin (ox :: j :: js) = ox ++ "," ++ commaJoin (j :: js) from rfl]
      simp only [fuelFor.goL]
      simp only [String.data_append, List.length_append,
        show ("," : String).data = [','] from rfl, List.length_singleton]
      try simp only [fuelFor.goL] at hrec
      omega

theorem goP_len (own : List (String × JSValue))
    (hIH : ∀ q ∈ own, supportedB q.2 = true → ∀ (out : String),
      nativeStringify q.2 = some out → fuelFor q.2 ≤ 2 * out.data.length)
    (hsup : ∀ q ∈ own, supportedB q.2 = true) :
    fuelFor.goP own ≤ 2 * (commaJoin (nativeStringify.goMembers own)).data.length + 2 := by
  induction own with
  | nil => simp [fuelFor.goP]
  | cons q t ih =>
    obtain ⟨k, v⟩ := q
    obtain ⟨ov, hov⟩ := nativeStringify_some v (hsup (k, v) (List.mem_cons_self (k, v) t))
    have hv : fuelFor v ≤ 2 * ov.data.length := hIH (k, v) (List.mem_cons_self (k, v) t)
      (hsup (k, v) (List.mem_cons_self (k, v) t)) ov hov
    have hqk := nativeQuote_len k
    have hel : nativeStringify.goMembers ((k, v) :: t)
        = (nativeQuote k ++ ":" ++ ov) :: nativeStringify.goMembers t := by
      simp [nativeStringify.goMembers, hov]
    rw [hel]
    cases ht : nativeStringify.goMembers t with
    | nil =>
      have ht0 : t = [] := by
        cases t with
        | nil => rfl
        | cons q2 t2 =>
          obtain ⟨k2, v2⟩ := q2
          obtain ⟨ov2, hov2⟩ := nativeStringify_some v2 (hsup (k2, v2) (by simp))
          simp [nativeStringify.goMembers, hov2] at ht
      subst ht0
      simp only [fuelFor.goP]
      rw [show commaJoin [nativeQuote k ++ ":" ++ ov] = nativeQuote k ++ ":" ++ ov from rfl]
      simp only [String.data_append, List.length_append,
        show (":" : String).data = [':'] from rfl, List.length_singleton]
      omega
    | cons j js =>
      have hrec := ih (fun z hz => hIH z (List.mem_cons_of_mem (k, v) hz))
        (fun z hz => hsup z (List.mem_cons_of_mem (k, v) hz))
      rw [ht] at hrec
      rw [show commaJoin ((nativeQuote k ++ ":" ++ ov) :: j :: js)
          = (nativeQuote k ++ ":" ++ ov) ++ "," ++ commaJoin (j :: js) from rfl]
      simp only [fuelFor.goP]
      simp only [String.data_append, List.length_append,
        show (":" : String).data = [':'] from rfl,
        show ("," : String).data = [','] from rfl, List.length_singleton]
      try simp only [fuelFor.goP] at hrec
      omega

theorem intToDecimal_len (i : Int) : 1 ≤ (intToDecimal i).data.length := by
  by_cases hneg : i < 0
  · rw [intToDecimal, if_pos hneg, String.data_append]
    simp
  · rw [intToDecimal, if_neg hneg]
    exact natToDecimal_len i.toNat

theorem fuelFor_le (v : JSValue) : supportedB v = true → ∀ (out : String),
    nativeStringify v = some out → fuelFor v ≤ 2 * out.data.length := by
  induction v using JSValue.inductionOn with
  | hnull =>
    intro _ out ho
    have hout : out = "null" := by simpa [nativeStringify] using ho.symm
    subst hout
    decide
  | hundef => intro hsup; simp [supportedB] at hsup
  | hfn => intro hsup; simp [supportedB] at hsup
  | hbool b =>
    intro _ out ho
    cases b with
    | true =>
      have hout : out = "true" := by simpa [nativeStringify, serializeBoolean] using ho.symm
      subst hout
      decide
    | false =>
      have hout : out = "false" := by simpa [nativeStringify, serializeBoolean] using ho.symm
      subst hout
      decide
  | hnum n =>
    intro _ out ho
    cases n with
    | fin i =>
      have hout : out = intToDecimal i := by
        simpa [nativeStringify, isFiniteNum, jsNumToString] using ho.symm
      subst hout
      have := intToDecimal_len i
      simp only [fuelFor]
      omega
    | nan =>
      have hout : out = "null" := by simpa [nativeStringify, isFiniteNum] using ho.symm
      subst hout
      decide
    | inf =>
      have hout : out = "null" := by simpa [nativeStringify, isFiniteNum] using ho.symm
      subst hout
      decide
    | ninf =>
      have hout : out = "null" := by simpa [nativeStringify, isFiniteNum] using ho.symm
      subst hout
      decide
  | hstr s =>
    intro _ out ho
    have hout : out = nativeQuote s := by simpa [nativeStringify] using ho.symm
    subst hout
    have := nativeQuote_len s
    simp only [fuelFor]
    omega
  | hdate d =>
    intro _ out ho
    have hout : out = nativeQuote (toISOString d) := by
      simpa [nativeStringify] using ho.symm
    rw [hout]
    have := nativeQuote_len (toISOString d)
    simp only [fuelFor]
    omega
  | harr xs hIH =>
    intro hsup out ho
    have hout : out = "[" ++ commaJoin (nativeStringify.goElems xs) ++ "]" := by
      simpa [nativeStringify] using ho.symm
    subst hout
    have hmem : ∀ x ∈ xs, supportedB x = true := by
      intro x hx
      simp only [supportedB] at hsup
      exact supported_goList_mem xs hsup x hx
    have hgl := goL_len xs (fun z hz => hIH z hz) hmem
    simp only [fuelFor]
    simp only [String.data_append, List.length_append,
      show ("[" : String).data = ['['] from rfl,
      show ("]" : String).data = [']'] from rfl, List.length_singleton]
    omega
  | hobj own inh hIH hIH2 =>
    intro hsup out ho
    have hout : out = "\x7b" ++ commaJoin (nativeStringify.goMembers own) ++ "\x7d" := by
      simpa [nativeStringify] using ho.symm
    subst hout
    have hsup2 : supportedB.goPairs own = true := by
      simp only [supportedB, Bool.and_eq_true] at hsup
      exact hsup.1
    have hgp := goP_len own (fun z hz => hIH z hz) (supported_goPairs_mem own hsup2)
    simp only [fuelFor]
    simp only [String.data_append, List.length_append,
      show ("\x7b" : String).data = ['\x7b'] from rfl,
      show ("\x7d" : String).data = ['\x7d'] from rfl, List.length_singleton]
    omega

theorem write_native (v : JSValue) (s : JSONFormat) (h : s.nativeJSON = true) :
    (write v false s).1 = nativeStringify v := by
  cases v <;> simp [write, typeofStr, hasSerializer, h, nativeStringify]

theorem jsonParse_stringify (v : JSValue) (hsup : supportedB v = true) (out : String)
    (ho : nativeStringify v = some out) : jsonParse out = .ok (cleanValue v) := by
  have hfuel : fuelFor v ≤ 2 * out.data.length + 2 := by
    have := fuelFor_le v hsup out ho
    omega
  have hp := parse_render v hsup out ho (2 * out.data.length + 2) hfuel [] rfl
  rw [List.append_nil] at hp
  have hlen : out.data.length = out.length := rfl
  rw [hlen] at hp
  simp [jsonParse, hp, skipWs]

theorem cleanValue_ne_vundef (v : JSValue) (hsup : supportedB v = true) :
    cleanValue v ≠ vundef := by
  cases v <;> simp [cleanValue, supportedB] at hsup ⊢
  split <;> simp

theorem read_ok (inst : JSONFormat) (txt : String) (w : JSValue)
    (hparse : nativeParse txt none = .ok w) (hw : w ≠ vundef)
    (h2 : inst.nativeJSON = true) : (read inst txt none).1 = some w := by
  cases w <;> simp [read, h2, hparse]
  exact absurd rfl hw

theorem clean_goList (xs : List JSValue) (hIH : ∀ x ∈ xs, cleanValue x = x) :
    cleanValue.goList xs = xs := by
  induction xs with
  | nil => rfl
  | cons x t ih =>
    simp only [cleanValue.goList, hIH x (List.mem_cons_self x t),
      ih (fun z hz => hIH z (List.mem_cons_of_mem x hz))]

theorem clean_goPairs (own : List (String × JSValue))
    (hIH : ∀ q ∈ own, cleanValue q.2 = q.2) :
    cleanValue.goPairs own = own := by
  induction own with
  | nil => rfl
  | cons q t ih =>
    obtain ⟨k, v⟩ := q
    have h1 : cleanValue v = v := hIH (k, v) (List.mem_cons_self (k, v) t)
    simp only [cleanValue.goPairs, h1, ih (fun z hz => hIH z (List.mem_cons_of_mem (k, v) hz))]

theorem finite_goList_mem (xs : List JSValue) (h : finiteNumsB.goList xs = true) :
    ∀ x ∈ xs, finiteNumsB x = true := by
  induction xs with
  | nil => intro x hx; cases hx
  | cons y rest ih =>
    simp only [finiteNumsB.goList, Bool.and_eq_true] at h
    intro x hx
    rcases List.mem_cons.mp hx with rfl | hx2
    · exact h.1
    · exact ih h.2 x hx2

theorem finite_goPairs_mem (own : List (String × JSValue))
    (h : finiteNumsB.goPairs own = true) : ∀ q ∈ own, finiteNumsB q.2 = true := by
  induction own with
  | nil => intro q hq; cases hq
  | cons y rest ih =>
    obtain ⟨k, v⟩ := y
    simp only [finiteNumsB.goPairs, Bool.and_eq_true] at h
    intro q hq
    rcases List.mem_cons.mp hq with rfl | hq2
    · exact h.1
    · exact ih h.2 q hq2

theorem cleanValue_id (v : JSValue) : supportedB v = true → dateFreeB v = true →
    finiteNumsB v = true → cleanValue v = v := by
  induction v using JSValue.inductionOn with
  | hnull => intro _ _ _; rfl
  | hundef => intro _ _ _; rfl
  | hfn => intro _ _ _; rfl
  | hbool b => intro _ _ _; rfl
  | hnum n =>
    intro _ _ hfin
    simp only [finiteNumsB] at hfin
    simp [cleanValue, hfin]
  | hstr s => intro _ _ _; rfl
  | hdate d => intro _ hdf _; simp [dateFreeB] at hdf
  | harr xs hIH =>
    intro hsup hdf hfin
    simp only [supportedB] at hsup
    simp only [dateFreeB] at hdf
    simp only [finiteNumsB] at hfin
    have : cleanValue.goList xs = xs :=
      clean_goList xs (fun x hx => hIH x hx (supported_goList_mem xs hsup x hx)
        (dateFree_goList_mem xs hdf x hx) (finite_goList_mem xs hfin x hx))
    simp [cleanValue, this]
  | hobj own inh hIH hIH2 =>
    intro hsup hdf hfin
    simp only [supportedB, Bool.and_eq_true] at hsup
    simp only [dateFreeB, Bool.and_eq_true] at hdf
    simp only [finiteNumsB, Bool.and_eq_true] at hfin
    have hinh : inh = [] := by
      have := hsup.2
      simpa using this
    have : cleanValue.goPairs own = own :=
      clean_goPairs own (fun q hq => hIH q hq (supported_goPairs_mem own hsup.1 q hq)
        (dateFree_goPairs_mem own hdf.1 q hq) (finite_goPairs_mem own hfin.1 q hq))
    subst hinh
    simp [cleanValue, this]

/-- Claim C9: for every value built from the supported categories, writing it
with pretty disabled on a native-capable instance and reading the result back
on a native-capable instance yields the value up to the two stated
exceptions: dates come back as their (ISO) strings and non-finite numbers as
null — formally, the round trip returns `cleanValue v`, and `cleanValue` is
the identity on date-free values with only finite numbers.  Both host
primitives are spec-modelled. -/
theorem C9_write_read_roundtrip (v : JSValue) (inst1 inst2 : JSONFormat)
    (hsup : supportedB v = true) (h1 : inst1.nativeJSON = true)
    (h2 : inst2.nativeJSON = true) :
    (∃ txt, (write v false inst1).1 = some txt ∧
      (read inst2 txt none).1 = some (cleanValue v)) ∧
    (dateFreeB v = true → finiteNumsB v = true → cleanValue v = v) := by
  obtain ⟨out, ho⟩ := nativeStringify_some v hsup
  refine ⟨⟨out, ?_, ?_⟩, fun hdf hfin => cleanValue_id v hsup hdf hfin⟩
  · rw [write_native v inst1 h1, ho]
  · have hjp := jsonParse_stringify v hsup out ho
    have hnp : nativeParse out none = .ok (cleanValue v) := by
      simp [nativeParse, hjp]
    exact read_ok inst2 out (cleanValue v) hnp (cleanValue_ne_vundef v hsup) h2

theorem C9_write_read_roundtrip_witness :
    supportedB (vobj [("a", varr [vnum (.fin 1), vstr ("x"), vbool true, vnull])] []) = true ∧
    ((∃ txt, (write (vobj [("a", varr [vnum (.fin 1), vstr ("x"), vbool true, vnull])] [])
        false ({} : JSONFormat)).1 = some txt ∧
      (read ({} : JSONFormat) txt none).1
        = some (cleanValue (vobj [("a", varr [vnum (.fin 1), vstr ("x"), vbool true, vnull])] []))) ∧
    (dateFreeB (vobj [("a", varr [vnum (.fin 1), vstr ("x"), vbool true, vnull])] []) = true →
      finiteNumsB (vobj [("a", varr [vnum (.fin 1), vstr ("x"), vbool true, vnull])] []) = true →
      cleanValue (vobj [("a", varr [vnum (.fin 1), vstr ("x"), vbool true, vnull])] [])
        = vobj [("a", varr [vnum (.fin 1), vstr ("x"), vbool true, vnull])] [])) :=
  ⟨rfl, C9_write_read_roundtrip (vobj [("a", varr [vnum (.fin 1), vstr ("x"), vbool true, vnull])] [])
    ({} : JSONFormat) ({} : JSONFormat) rfl rfl rfl⟩
